import Mathlib

/-!
# A verification development for the wiki server (`main.go`)

The program stores pages as flat files, renders a page body to an HTML
fragment (escape, then link every `[Title]` token, then turn newlines into
`<br>`), and serves the `/view/`, `/edit/` and `/save/` routes behind a path
validator.

Go strings and `[]byte` values are byte sequences, so both are lists of
bytes here.  The standard-library functions the program calls
(`template.HTMLEscapeString`, `regexp`, `strings.ReplaceAll`,
`filepath.Join`, `os.ReadFile`, `os.WriteFile`, `os.MkdirAll`,
`http.Redirect`, `http.ServeMux`) are modelled after their documented
behaviour; the functions of `main.go` are translated line by line on top of
them.
-/

namespace Wiki

/-! ## Bytes and strings -/

/-- One byte of a Go string. -/
abbrev Byte := UInt8

/-- The type of a Go `string` or `[]byte`: a sequence of bytes. -/
abbrev Str := List Byte

/-- Bytes of an ASCII string literal of the source. -/
def lit (s : String) : Str := s.toList.map (fun c => c.toNat.toUInt8)

/-! ## `template.HTMLEscapeString` -/

def htmlQuot : Str := lit "&#34;"
def htmlApos : Str := lit "&#39;"
def htmlAmp : Str := lit "&amp;"
def htmlLt : Str := lit "&lt;"
def htmlGt : Str := lit "&gt;"
/-- The replacement character U+FFFD in UTF-8, written for a NUL byte. -/
def htmlNull : Str := [0xEF, 0xBF, 0xBD]

/-- What `HTMLEscape` writes for one byte: the switch of the library loop
(NUL, `"` = 34, `'` = 39, `&` = 38, `<` = 60, `>` = 62; any other byte is
copied). -/
def escapeByte (c : Byte) : Str :=
  if c = 0 then htmlNull
  else if c = 34 then htmlQuot
  else if c = 39 then htmlApos
  else if c = 38 then htmlAmp
  else if c = 60 then htmlLt
  else if c = 62 then htmlGt
  else [c]

/-- The function `template.HTMLEscapeString`: every byte is replaced by its escape. -/
def HTMLEscapeString : Str → Str
  | [] => []
  | c :: cs => escapeByte c ++ HTMLEscapeString cs

/-! ## `regexp`

A backtracking matcher with the leftmost-first (Perl) preference order of
Go's `regexp`: of all matches it reports the one that starts leftmost, and
among those the one a backtracking search finds first (left alternative
before right, one more repetition before stopping).  It works byte by byte,
which agrees with Go's rune-by-rune matching for patterns made of ASCII
bytes and ASCII classes, the only ones this program has: an ASCII byte is
never part of a longer UTF-8 sequence.
-/

/-- Regular expressions, with the operators the two patterns of the program use. -/
inductive Regex where
  | empty
  | byte (b : Byte)
  | cls (ranges : List (Byte × Byte))
  | cat (r s : Regex)
  | alt (r s : Regex)
  | plus (r : Regex)
  | group (i : Nat) (r : Regex)
  | bot
  | eot

/-- One thread of the backtracking search: the position reached, the input
left, and the capture groups closed so far (most recent first). -/
structure Thread where
  pos : Nat
  rest : Str
  caps : List (Nat × Str)
deriving DecidableEq

/-- Membership of a byte in a class given as inclusive ranges: `[a-zA-Z0-9]` is
`[(97, 122), (65, 90), (48, 57)]`. -/
def inClass (ranges : List (Byte × Byte)) (c : Byte) : Bool :=
  ranges.any (fun lh => decide (lh.1 ≤ c) && decide (c ≤ lh.2))

/-- Greedy `r+`: every way of matching `r` one or more times, more
repetitions first.  A further repetition is only tried after progress, so
`n` greater than the length of the input never runs out. -/
def plusLoop (f : Thread → List Thread) : Nat → Thread → List Thread
  | 0, _ => []
  | n + 1, t =>
    (f t).flatMap (fun t1 =>
      (if t1.rest.length < t.rest.length then plusLoop f n t1 else []) ++ [t1])

/-- All ways a regular expression matches at a thread, in preference order. -/
def Regex.run : Regex → Thread → List Thread
  | .empty, t => [t]
  | .byte b, t =>
    match t.rest with
    | c :: cs => if c = b then [⟨t.pos + 1, cs, t.caps⟩] else []
    | [] => []
  | .cls rs, t =>
    match t.rest with
    | c :: cs => if inClass rs c then [⟨t.pos + 1, cs, t.caps⟩] else []
    | [] => []
  | .cat r s, t => (r.run t).flatMap s.run
  | .alt r s, t => r.run t ++ s.run t
  | .plus r, t => plusLoop r.run (t.rest.length + 1) t
  | .group i r, t =>
    (r.run t).map (fun t1 => ⟨t1.pos, t1.rest, (i, t.rest.take (t1.pos - t.pos)) :: t1.caps⟩)
  | .bot, t => if t.pos = 0 then [t] else []
  | .eot, t => if t.rest = [] then [t] else []

/-- The regular expression of a literal string, byte after byte. -/
def Regex.str : Str → Regex
  | [] => .empty
  | b :: bs => .cat (.byte b) (Regex.str bs)

/-- Number of capture groups (the largest group index). -/
def Regex.numCap : Regex → Nat
  | .empty => 0
  | .byte _ => 0
  | .cls _ => 0
  | .cat r s => max r.numCap s.numCap
  | .alt r s => max r.numCap s.numCap
  | .plus r => r.numCap
  | .group i r => max i r.numCap
  | .bot => 0
  | .eot => 0

/-- The leftmost-first match in `src`, which starts at absolute position
`pos`: the start of the match and the thread at its end. -/
def findFrom (re : Regex) : Nat → Str → Option (Nat × Thread)
  | pos, [] => ((re.run ⟨pos, [], []⟩).head?).map (fun t => (pos, t))
  | pos, c :: cs =>
    match (re.run ⟨pos, c :: cs, []⟩).head? with
    | some t => some (pos, t)
    | none => findFrom re (pos + 1) cs

/-- Text of capture group `i` (empty when the group did not take part). -/
def capture (caps : List (Nat × Str)) (i : Nat) : Str :=
  match caps.find? (fun e => e.1 == i) with
  | some e => e.2
  | none => []

/-- The method `(*Regexp).FindStringSubmatch`: `none` for Go's nil, else the
text of the match followed by the text of each group. -/
def Regex.FindStringSubmatch (re : Regex) (s : Str) : Option (List Str) :=
  match findFrom re 0 s with
  | none => none
  | some (a0, t) =>
    some ((s.drop a0).take (t.pos - a0) ::
      (List.range re.numCap).map (fun i => capture t.caps (i + 1)))

/-- Loop of `(*Regexp).replaceAll` on the input from `pos` on: copy the
bytes before the next match, append the replacement of the match, go on
after the match.  Written for patterns whose matches are never empty; on an
empty match the rest of the input is copied unchanged. -/
def replaceAllLoop (re : Regex) (repl : Str → Str) : Nat → Nat → Str → Str
  | 0, _, src => src
  | fuel + 1, pos, src =>
    match findFrom re pos src with
    | none => src
    | some (a0, t) =>
      if a0 < t.pos then
        src.take (a0 - pos) ++ repl ((src.drop (a0 - pos)).take (t.pos - a0))
          ++ replaceAllLoop re repl fuel t.pos t.rest
      else src

/-- The method `(*Regexp).ReplaceAllStringFunc`: every match, leftmost first and
without overlap, replaced by `repl` of the matched text.  Each round of the
loop consumes at least one byte, so `src.length` rounds are enough. -/
def Regex.ReplaceAllStringFunc (re : Regex) (src : Str) (repl : Str → Str) : Str :=
  replaceAllLoop re repl (src.length + 1) 0 src

/-- The function `strings.ReplaceAll(s, "\n", new)`, for the one-byte old string the program
passes: every newline byte (10) becomes `new`. -/
def replaceNewlines (new : Str) : Str → Str
  | [] => []
  | c :: cs => (if c = 10 then new else [c]) ++ replaceNewlines new cs

/-! ## The program: rendering -/

/-- The class `[a-zA-Z0-9]`. -/
def alnum : Regex := .cls [(97, 122), (65, 90), (48, 57)]

/-- The pattern `\[[a-zA-Z0-9]+\]` (`[` = 91, `]` = 93). -/
def validLink : Regex := .cat (.byte 91) (.cat (.plus alnum) (.byte 93))

structure Page where
  Title : Str
  Body : Str
deriving DecidableEq

/-- The call `fmt.Sprintf` with the format of `HTMLBody` and `title` twice. -/
def linkFormat (title : Str) : Str :=
  lit "<a href=\"/view/" ++ title ++ lit "\">" ++ title ++ lit "</a>"

/-- The method `HTMLBody`: escape, link, break lines. -/
def Page.HTMLBody (p : Page) : Str :=
  let escaped := HTMLEscapeString p.Body
  let linked := validLink.ReplaceAllStringFunc escaped (fun m =>
    let title := (m.take (m.length - 1)).drop 1
    linkFormat title)
  let linkedWithNewlines := replaceNewlines (lit "<br>") linked
  linkedWithNewlines

/-! ## Paths: `path.Clean` and `filepath.Join` (Unix) -/

/-- The function `strings.Split(s, sep)` for a one-byte separator. -/
def splitSep (sep : Byte) : Str → List Str
  | [] => [[]]
  | c :: cs =>
    if c = sep then [] :: splitSep sep cs
    else match splitSep sep cs with
      | seg :: segs => (c :: seg) :: segs
      | [] => [[c]]

/-- The function `strings.Join(segs, sep)` for a one-byte separator. -/
def joinSep (sep : Byte) : List Str → Str
  | [] => []
  | [seg] => seg
  | seg :: segs => seg ++ sep :: joinSep sep segs

/-- Element-wise pass of `Clean` over the path elements, the kept elements
being stacked in `out` (last kept first): empty and `.` elements are
dropped, `..` removes the element before it, is dropped at the root of a
rooted path and is kept at the start of a relative one. -/
def cleanSegs (rooted : Bool) : List Str → List Str → List Str
  | [], out => out.reverse
  | seg :: segs, out =>
    if seg = [] ∨ seg = lit "." then cleanSegs rooted segs out
    else if seg = lit ".." then
      match out with
      | top :: out1 =>
        if top = lit ".." then cleanSegs rooted segs (seg :: out)
        else cleanSegs rooted segs out1
      | [] => if rooted then cleanSegs rooted segs [] else cleanSegs rooted segs [seg]
    else cleanSegs rooted segs (seg :: out)

/-- The function `path.Clean` (and `filepath.Clean` on Unix): the shortest equivalent path. -/
def Clean (path : Str) : Str :=
  if path = [] then lit "."
  else
    let rooted := path.head? = some 47
    let segs := cleanSegs rooted (splitSep 47 path) []
    if rooted then 47 :: joinSep 47 segs
    else if segs = [] then lit "." else joinSep 47 segs

/-- The function `filepath.Join` of two elements: the non-empty ones joined by `/`, cleaned. -/
def filepathJoin (a b : Str) : Str :=
  if a = [] ∧ b = [] then []
  else if a = [] then Clean b
  else if b = [] then Clean a
  else Clean (a ++ 47 :: b)

/-- Directory part of a cleaned path (all but its last element), the
directory a file of that path is created in. -/
def parentDir (path : Str) : Str :=
  match (splitSep 47 path).reverse with
  | _ :: seg :: segs =>
    if seg = [] ∧ segs = [] then lit "/" else joinSep 47 (seg :: segs).reverse
  | _ => lit "."

/-! ## The file system under the page store

The state is the set of files and directories that exist, by cleaned path
relative to the working directory.  The working directory, the root and
their ancestors always exist.
-/

inductive Node where
  | file (content : Str)
  | dir
deriving DecidableEq

/-- The state of the file system: the nodes that exist, by path. -/
abbrev FS := List (Str × Node)

def FS.lookup (fs : FS) (path : Str) : Option Node :=
  (fs.find? (fun e => e.1 == path)).map (fun e => e.2)

/-- Create or replace the node at `path`. -/
def FS.insert (fs : FS) (path : Str) (n : Node) : FS :=
  (path, n) :: fs.filter (fun e => e.1 != path)

def FS.isDir (fs : FS) (path : Str) : Bool :=
  path == lit "." || path == lit "/" || (splitSep 47 path).all (fun seg => seg == lit "..")
    || fs.lookup path == some Node.dir

/-- The error type `*fs.PathError` of the `os` functions. -/
structure PathError where
  Op : Str
  Path : Str
  Err : Str
deriving DecidableEq

/-- The method `(*PathError).Error`. -/
def PathError.Error (e : PathError) : Str :=
  e.Op ++ lit " " ++ e.Path ++ lit ": " ++ e.Err

def ENOENT : Str := lit "no such file or directory"
def EISDIR : Str := lit "is a directory"
def ENOTDIR : Str := lit "not a directory"
def EINVAL : Str := lit "invalid argument"

/-- The function `os.ReadFile`: the content of the regular file at `name`. -/
def ReadFile (fs : FS) (name : Str) : Except PathError Str :=
  if (0 : Byte) ∈ name then .error ⟨lit "open", name, EINVAL⟩
  else match fs.lookup name with
    | some (Node.file content) => .ok content
    | some Node.dir => .error ⟨lit "read", name, EISDIR⟩
    | none => .error ⟨lit "open", name, ENOENT⟩

/-- The function `os.WriteFile`: create the file or truncate it, then write `data`.
The directory of the file must exist and `name` must not be a directory.
Returns the new state and Go's `error` (`none` for nil). -/
def WriteFile (fs : FS) (name : Str) (data : Str) : FS × Option PathError :=
  if (0 : Byte) ∈ name then (fs, some ⟨lit "open", name, EINVAL⟩)
  else if !fs.isDir (parentDir name) then (fs, some ⟨lit "open", name, ENOENT⟩)
  else if fs.lookup name = some Node.dir then (fs, some ⟨lit "open", name, EISDIR⟩)
  else (fs.insert name (Node.file data), none)

/-- The function `os.MkdirAll` for a path of a single element in the working directory,
as `dataPath` is: nothing to do when it is a directory, an error when it is
a file, else the directory is created. -/
def MkdirAll (fs : FS) (path : Str) : FS × Option PathError :=
  match fs.lookup path with
  | some Node.dir => (fs, none)
  | some (Node.file _) => (fs, some ⟨lit "mkdir", path, ENOTDIR⟩)
  | none => (fs.insert path Node.dir, none)

/-! ## The program: the page store -/

def dataPath : Str := lit "data"
def tmplPath : Str := lit "tmpl"

/-- The method `save`: make sure the data directory exists, then write the body. -/
def Page.save (p : Page) (fs : FS) : FS × Option PathError :=
  let filename := p.Title ++ lit ".txt"
  let filePath := filepathJoin dataPath filename
  match MkdirAll fs dataPath with
  | (fs1, some err) => (fs1, some err)
  | (fs1, none) => WriteFile fs1 filePath p.Body

def loadPage (fs : FS) (title : Str) : Except PathError Page :=
  let filename := title ++ lit ".txt"
  let filePath := filepathJoin dataPath filename
  match ReadFile fs filePath with
  | .error err => .error err
  | .ok body => .ok { Title := title, Body := body }

/-! ## `net/url`, as far as `http.Redirect` depends on it -/

/-- Control bytes, which `url.Parse` refuses. -/
def isCTL (b : Byte) : Bool := decide (b < 32) || b == 127

def ishex (c : Byte) : Bool :=
  (decide (48 ≤ c) && decide (c ≤ 57)) || (decide (97 ≤ c) && decide (c ≤ 102))
    || (decide (65 ≤ c) && decide (c ≤ 70))

/-- Whether `unescape` succeeds on a path, a fragment or a userinfo: every
`%` (37) is followed by two hexadecimal digits. -/
def validEscapes : Str → Bool
  | [] => true
  | c :: cs =>
    (c != 37 || (match cs with
      | a :: b :: _ => ishex a && ishex b
      | _ => false)) && validEscapes cs

def isLetter (c : Byte) : Bool :=
  (decide (97 ≤ c) && decide (c ≤ 122)) || (decide (65 ≤ c) && decide (c ≤ 90))

/-- Loop of `getScheme` after the first byte: whether a `:` (58) ends a run of
scheme bytes (letters, digits, `+`, `-`, `.`). -/
def schemeEnds : Str → Bool
  | [] => false
  | c :: cs =>
    if isLetter c || (decide (48 ≤ c) && decide (c ≤ 57)) || c == 43 || c == 45 || c == 46
    then schemeEnds cs else c == 58

/-- The function `getScheme`: `none` for its error (a leading `:`), else whether the
scheme is non-empty. -/
def getScheme : Str → Option Bool
  | [] => some false
  | c :: cs => if isLetter c then some (schemeEnds cs) else if c = 58 then none else some false

/-- The function `validUserinfo`: letters, digits and `-._:~!$&'()*+,;=%@`. -/
def validUserinfo (s : Str) : Bool :=
  s.all (fun c => isLetter c || (decide (48 ≤ c) && decide (c ≤ 57))
    || (lit "-._:~!$&\x27()*+,;=%@").contains c)

/-- Whether `parseAuthority` succeeds with an empty host: the authority is empty,
or is a valid userinfo followed by `@` (64).  With a non-empty host it
fails or returns that host. -/
def emptyHost (authority : Str) : Bool :=
  authority == [] ||
    (authority.getLast? == some 64 && validUserinfo authority.dropLast
      && validEscapes authority.dropLast)

/-- Whether `url.Parse` succeeds with an empty scheme and an empty host, the
condition under which `http.Redirect` rewrites its url.  `Parse` cuts the
fragment off at `#` (35) and the query at `?` (63), refuses control bytes
outside the fragment, a colon in the first element of a relative path, and
invalid escapes in the path or the fragment. -/
def localRef (rawURL : Str) : Bool :=
  let u := rawURL.takeWhile (fun c => c != 35)
  let frag := (rawURL.dropWhile (fun c => c != 35)).drop 1
  let rest := u.takeWhile (fun c => c != 63)
  !u.any isCTL &&
    (u == lit "*" ||
      (getScheme u == some false &&
        (rest.head? == some 47 || !(rest.takeWhile (fun c => c != 47)).contains 58) &&
        (if lit "//" <+: rest ∧ ¬ lit "///" <+: rest then
          emptyHost ((rest.drop 2).takeWhile (fun c => c != 47))
            && validEscapes ((rest.drop 2).dropWhile (fun c => c != 47))
        else validEscapes rest))) &&
    validEscapes frag

/-- Lower-case hexadecimal digit of a number below 16. -/
def hexDigit (n : Nat) : Byte := if n < 10 then (48 + n).toUInt8 else (87 + n).toUInt8

/-- The function `hexEscapeNonASCII`: a byte from 128 on becomes `%` and its two
hexadecimal digits. -/
def hexEscapeNonASCII : Str → Str
  | [] => []
  | c :: cs =>
    (if 128 ≤ c then [37, hexDigit (c.toNat / 16), hexDigit (c.toNat % 16)] else [c])
      ++ hexEscapeNonASCII cs

/-- Directory part of `path.Split`: the path up to its last `/`, the slash included. -/
def pathDir (p : Str) : Str := (p.reverse.dropWhile (fun c => c != 47)).reverse

/-! ## `net/http`

A response is the sequence of calls made on the `http.ResponseWriter`; a
redirect is recorded with the `Location` header and the status it sets.
-/

structure Request where
  /-- The field `r.URL.Path`: the path, unescaped. -/
  Path : Str
  /-- The method `r.URL.EscapedPath()`: the path as the request line has it. -/
  EscapedPath : Str
  /-- The method `r.FormValue`. -/
  FormValue : Str → Str

inductive Call where
  /-- The call `http.Redirect(w, r, url, code)`, with the `Location` it sets. -/
  | Redirect (location : Str) (code : Nat)
  /-- The call `http.Error(w, msg, code)`. -/
  | Error (msg : Str) (code : Nat)
  /-- The call `templates.ExecuteTemplate(w, name, data)`. -/
  | ExecuteTemplate (name : Str) (data : Page)
  /-- The redirect the mux itself answers with, to the given url path; its
  status differs between Go releases and is not recorded. -/
  | MuxRedirect (path : Str)
deriving DecidableEq

abbrev ResponseWriter := List Call

def StatusFound : Nat := 302
def StatusNotFound : Nat := 404
def StatusInternalServerError : Nat := 500

/-- The `Location` header `http.Redirect` sets for `url`.  A url that parses
without scheme and host is made absolute with the directory of the request
path, cleaned by `path.Clean` up to its query (a trailing slash is kept),
and in any case non-ASCII bytes are hex-escaped. -/
def redirectLocation (r : Request) (url : Str) : Str :=
  hexEscapeNonASCII
    (if localRef url then
      let oldpath := if r.Path = [] then lit "/" else r.Path
      let url1 := if url.head? ≠ some 47 then pathDir oldpath ++ url else url
      let query := url1.dropWhile (fun c => c != 63)
      let url2 := url1.takeWhile (fun c => c != 63)
      let url3 := Clean url2
      (if url2.getLast? = some 47 ∧ url3.getLast? ≠ some 47 then url3 ++ lit "/" else url3)
        ++ query
    else url)

def http.Redirect (w : ResponseWriter) (r : Request) (url : Str) (code : Nat) : ResponseWriter :=
  w ++ [Call.Redirect (redirectLocation r url) code]

def http.Error (w : ResponseWriter) (msg : Str) (code : Nat) : ResponseWriter :=
  w ++ [Call.Error msg code]

/-- The function `http.NotFound`, which is `Error(w, "404 page not found", StatusNotFound)`. -/
def http.NotFound (w : ResponseWriter) (_r : Request) : ResponseWriter :=
  http.Error w (lit "404 page not found") StatusNotFound

/-- The type `func(http.ResponseWriter, *http.Request)`, with the file system it acts on. -/
abbrev HandlerFunc := ResponseWriter → Request → FS → ResponseWriter × FS

/-! ## The program: handlers -/

/-- The parsed template set.  The files `tmpl/edit.html` and `tmpl/view.html`
are not part of the sources, so whether executing a template on a page
fails (with which message) is a parameter. -/
structure Templates where
  ExecuteTemplate : Str → Page → Option Str

def renderTemplate (templates : Templates) (w : ResponseWriter) (tmpl : Str) (p : Page) :
    ResponseWriter :=
  let w1 := w ++ [Call.ExecuteTemplate (tmpl ++ lit ".html") p]
  match templates.ExecuteTemplate (tmpl ++ lit ".html") p with
  | some err => http.Error w1 err StatusInternalServerError
  | none => w1

def viewHandler (templates : Templates) (w : ResponseWriter) (r : Request) (title : Str)
    (fs : FS) : ResponseWriter × FS :=
  match loadPage fs title with
  | .error _ => (http.Redirect w r (lit "/edit/" ++ title) StatusFound, fs)
  | .ok p => (renderTemplate templates w (lit "view") p, fs)

def editHandler (templates : Templates) (w : ResponseWriter) (_r : Request) (title : Str)
    (fs : FS) : ResponseWriter × FS :=
  let p := match loadPage fs title with
    | .error _ => { Title := title, Body := [] }
    | .ok p => p
  (renderTemplate templates w (lit "edit") p, fs)

def saveHandler (w : ResponseWriter) (r : Request) (title : Str) (fs : FS) :
    ResponseWriter × FS :=
  let body := r.FormValue (lit "body")
  let p : Page := { Title := title, Body := body }
  match p.save fs with
  | (fs1, some err) => (http.Error w err.Error StatusInternalServerError, fs1)
  | (fs1, none) => (http.Redirect w r (lit "/view/" ++ title) StatusFound, fs1)

def rootHandler (w : ResponseWriter) (r : Request) (fs : FS) : ResponseWriter × FS :=
  (http.Redirect w r (lit "/view/FrontPage") StatusFound, fs)

/-- The pattern `^/(edit|save|view)/([a-zA-Z0-9]+)$` (`/` = 47). -/
def validPath : Regex :=
  .cat .bot (.cat (.byte 47)
    (.cat (.group 1 (.alt (.str (lit "edit")) (.alt (.str (lit "save")) (.str (lit "view")))))
      (.cat (.byte 47) (.cat (.group 2 (.plus alnum)) .eot))))

def makeHandler (fn : ResponseWriter → Request → Str → FS → ResponseWriter × FS) : HandlerFunc :=
  fun w r fs =>
    match validPath.FindStringSubmatch r.Path with
    | none => (http.NotFound w r, fs)
    | some m => fn w r (m.getD 2 []) fs

/-! ## `http.ServeMux` and `main` -/

/-- The function `cleanPath` of `net/http`: the canonical form of a request path. -/
def cleanPath (p : Str) : Str :=
  if p = [] then lit "/"
  else
    let p1 := if p.head? = some 47 then p else 47 :: p
    let np := Clean p1
    if p1.getLast? = some 47 ∧ np ≠ lit "/" then np ++ lit "/" else np

/-- Value of a hexadecimal digit. -/
def unhex (c : Byte) : Byte :=
  if 48 ≤ c ∧ c ≤ 57 then c - 48
  else if 97 ≤ c ∧ c ≤ 102 then c - 97 + 10
  else if 65 ≤ c ∧ c ≤ 70 then c - 65 + 10
  else 0

/-- Decoding loop of `unescape`: `%XY` becomes the byte with those digits. -/
def unescapeBytes : Str → Str
  | c :: a :: b :: rest =>
    if c = 37 then (unhex a * 16 + unhex b) :: unescapeBytes rest
    else c :: unescapeBytes (a :: b :: rest)
  | s => s

/-- The function `pathUnescape` of the mux: the segment unescaped, or as it is when its
escapes are invalid. -/
def pathUnescape (seg : Str) : Str :=
  if validEscapes seg then unescapeBytes seg else seg

/-- The function `firstSegment` of the mux, on a path that starts with `/`: the first
segment, unescaped, and the rest of the path; `/` alone gives `/` and
nothing. -/
def firstSegment (path : Str) : Str × Str :=
  if path = lit "/" then (lit "/", [])
  else
    (pathUnescape ((path.drop 1).takeWhile (fun c => c != 47)),
      (path.drop 1).dropWhile (fun c => c != 47))

/-- Segments of a pattern made of literal segments: `/view/` has the
segments `view` and the empty one, which stands for the rest of the path. -/
def patternSegments (pattern : Str) : List Str := splitSep 47 (pattern.drop 1)

/-- Matching of a path against the segments of a pattern, as the routing tree
does it: a literal segment must equal the first segment of the path, the
empty last segment of a pattern ending in `/` takes whatever is left, and a
pattern not ending in `/` must use the path up. -/
def matchSegments : List Str → Str → Bool
  | [], path => path == []
  | seg :: more, path =>
    if seg == [] && more == [] then path != []
    else path != [] && (firstSegment path).1 == seg && matchSegments more (firstSegment path).2

/-- The method `(*ServeMux).match` as in Go 1.22 and later, for patterns made of literal
segments as those of `main` are: of the patterns that match the path the
one with the most segments, with its handler. -/
def ServeMux.match (routes : List (Str × HandlerFunc)) (path : Str) :
    Option (Str × HandlerFunc) :=
  routes.foldl (fun (best : Option (Str × HandlerFunc)) e =>
    if matchSegments (patternSegments e.1) path then
      match best with
      | some b =>
        if (patternSegments b.1).length < (patternSegments e.1).length then some e else best
      | none => some e
    else best) none

/-- The function `exactMatch` of the mux: there is a match, and the pattern does not end
in `/` or the path ends where the pattern does. -/
def exactMatch (n : Option (Str × HandlerFunc)) (path : Str) : Bool :=
  match n with
  | none => false
  | some e =>
    e.1.getLast? != some 47 ||
      (path.getLast? == some 47 && (patternSegments e.1).length == path.count 47)

/-- The method `(*ServeMux).ServeHTTP` as in Go 1.22 and later, for the registered `routes`
(requests of method CONNECT apart).  The mux works on the cleaned escaped
path.  A path `/tree` without an exact match while `/tree/` has one is
answered with a redirect to `/tree/`, an escaped path that is not in
canonical form with a redirect to its canonical form, and every other
request goes to the matching handler, or gets 404 when there is none. -/
def ServeMux.ServeHTTP (routes : List (Str × HandlerFunc)) : HandlerFunc :=
  fun w r fs =>
    let path := cleanPath r.EscapedPath
    let n := ServeMux.match routes path
    if !exactMatch n path ∧ path.getLast? ≠ some 47
        ∧ exactMatch (ServeMux.match routes (path ++ lit "/")) (path ++ lit "/") then
      (w ++ [Call.MuxRedirect (cleanPath r.Path ++ lit "/")], fs)
    else if path ≠ r.EscapedPath then
      (w ++ [Call.MuxRedirect path], fs)
    else
      match n with
      | some e => e.2 w r fs
      | none => (http.NotFound w r, fs)

/-- The routes `main` registers. -/
def routes (templates : Templates) : List (Str × HandlerFunc) :=
  [ (lit "/", rootHandler),
    (lit "/view/", makeHandler (viewHandler templates)),
    (lit "/edit/", makeHandler (editHandler templates)),
    (lit "/save/", makeHandler saveHandler) ]

/-- The server `main` starts: every request is served by the mux. -/
def main (templates : Templates) : HandlerFunc :=
  ServeMux.ServeHTTP (routes templates)

/-! ## Direct readings of the two patterns -/

/-- Membership in `[a-zA-Z0-9]`. -/
def isAlnum (c : Byte) : Bool := inClass [(97, 122), (65, 90), (48, 57)] c

/-- Direct reading of `\[[a-zA-Z0-9]+\]` at the head of the input: the token
between the brackets and the input after the closing bracket. -/
def linkAt : Str → Option (Str × Str)
  | [] => none
  | c :: cs =>
    if c = 91 ∧ cs.takeWhile isAlnum ≠ [] then
      match cs.dropWhile isAlnum with
      | d :: r => if d = 93 then some (cs.takeWhile isAlnum, r) else none
      | [] => none
    else none

/-- Linking, read directly off the pattern: at each position, a token
`[T]` becomes the anchor for `T` and the scan goes on after it, any other
byte is copied. -/
def linkAll : Str → Str
  | [] => []
  | c :: cs =>
    match h : linkAt (c :: cs) with
    | some (T, r) => linkFormat T ++ linkAll r
    | none => c :: linkAll cs
termination_by s => s.length
decreasing_by
  · simp only [linkAt] at h
    split at h
    · split at h
      · rename_i d r1 hd
        split at h
        · simp only [Option.some.injEq, Prod.mk.injEq] at h
          have hle := (List.dropWhile_sublist (l := cs) isAlnum).length_le
          rw [hd, h.2] at hle
          simp only [List.length_cons] at hle ⊢
          omega
        · simp at h
      · simp at h
    · simp at h
  · simp

/-- The replacement function `HTMLBody` passes to `ReplaceAllStringFunc`. -/
def linkRepl (m : Str) : Str :=
  linkFormat ((m.take (m.length - 1)).drop 1)

/-- Whether the input contains a token `[T]` with `T` one or more alphanumerics. -/
def hasLink : Str → Bool
  | [] => false
  | c :: cs => (linkAt (c :: cs)).isSome || hasLink cs

/-- The rendering pipeline, as `HTMLBody_eq` shows `HTMLBody` computes it. -/
def render (x : Str) : Str :=
  replaceNewlines (lit "<br>") (linkAll (HTMLEscapeString x))

/-- Direct reading of `/([a-zA-Z0-9]+)$` at the head of the input: the title. -/
def titleAt : Str → Option Str
  | [] => none
  | d :: s3 => if d = 47 ∧ s3 ≠ [] ∧ (∀ c ∈ s3, isAlnum c = true) then some s3 else none

/-- Direct reading of one action `a` followed by `/title` to the end of the input. -/
def actionAt (a s1 : Str) : Option (Str × Str) :=
  if a <+: s1 then (titleAt (s1.drop a.length)).map (fun t => (a, t)) else none

/-- Direct reading of `^/(edit|save|view)/([a-zA-Z0-9]+)$`: the action and the title. -/
def pathAt : Str → Option (Str × Str)
  | [] => none
  | c :: s1 =>
    if c = 47 then
      (actionAt (lit "edit") s1).or ((actionAt (lit "save") s1).or (actionAt (lit "view") s1))
    else none

/-- The property `G` holds of every suffix of the string that starts with `<`. -/
def AllLt (G : Str → Prop) : Str → Prop
  | [] => True
  | c :: r => (c = 60 → G (c :: r)) ∧ AllLt G r

/-- What the renderer inserts: an anchor for an alphanumeric token, the end
of an anchor, or a line break. -/
def Inserted (t : Str) : Prop :=
  (∃ T rest, T ≠ [] ∧ (∀ c ∈ T, isAlnum c = true) ∧ t = linkFormat T ++ rest) ∨
    lit "</a>" <+: t ∨ lit "<br>" <+: t

/-! ## Facts about the matcher -/

theorem alnum_run_cons (pos : Nat) (c : Byte) (cs : Str) (caps : List (Nat × Str)) :
    alnum.run ⟨pos, c :: cs, caps⟩ = if isAlnum c then [⟨pos + 1, cs, caps⟩] else [] := by
  simp [alnum, Regex.run, isAlnum]

theorem alnum_run_nil (pos : Nat) (caps : List (Nat × Str)) :
    alnum.run ⟨pos, [], caps⟩ = [] := by
  simp [alnum, Regex.run]

/-- Greedy `[a-zA-Z0-9]+` followed by a continuation that fails in front of an
alphanumeric byte: only the longest run of alphanumerics is left. -/
theorem plusLoop_alnum (k : Thread → List Thread)
    (hk : ∀ pos c cs caps, isAlnum c = true → k ⟨pos, c :: cs, caps⟩ = [])
    (n : Nat) : ∀ (pos : Nat) (s : Str) (caps : List (Nat × Str)), s.length < n →
    (plusLoop alnum.run n ⟨pos, s, caps⟩).flatMap k =
      if s.takeWhile isAlnum = [] then []
      else k ⟨pos + (s.takeWhile isAlnum).length, s.dropWhile isAlnum, caps⟩ := by
  induction n with
  | zero => intro pos s caps h; omega
  | succ n ih =>
    intro pos s caps h
    cases s with
    | nil => simp [plusLoop, alnum_run_nil]
    | cons c cs =>
      simp only [plusLoop, alnum_run_cons]
      by_cases hc : isAlnum c = true
      · have hlen : cs.length < n := by simpa using h
        simp only [hc, if_true, List.flatMap_cons, List.flatMap_nil, List.append_nil,
          List.length_cons, Nat.lt_succ_self, List.flatMap_append, ih (pos + 1) cs caps hlen,
          List.takeWhile_cons, List.dropWhile_cons]
        cases cs with
        | nil => simp
        | cons d ds =>
          by_cases hd : isAlnum d = true
          · simp [hd, hk, Nat.add_assoc, Nat.add_comm 1]
          · simp [hd]
      · simp [hc]

theorem linkAt_spec (s T r : Str) :
    linkAt s = some (T, r) ↔
      T ≠ [] ∧ (∀ c ∈ T, isAlnum c = true) ∧ s = 91 :: T ++ 93 :: r := by
  constructor
  · intro h
    cases s with
    | nil => simp [linkAt] at h
    | cons c cs =>
      simp only [linkAt] at h
      split at h
      · rename_i hc
        obtain ⟨hc1, hc2⟩ := hc
        split at h
        · rename_i d r1 hd
          split at h
          · rename_i hd93
            simp only [Option.some.injEq, Prod.mk.injEq] at h
            obtain ⟨hT, hr⟩ := h
            subst hT hr hc1 hd93
            refine ⟨hc2, fun c hc => (List.mem_takeWhile_imp hc), ?_⟩
            rw [← hd]
            simp [List.takeWhile_append_dropWhile]
          · simp at h
        · simp at h
      · simp at h
  · rintro ⟨hT, hal, rfl⟩
    have h93 : isAlnum 93 = false := by decide
    have htw : List.takeWhile isAlnum (T ++ 93 :: r) = T := by
      rw [List.takeWhile_append_of_pos hal]
      simp [List.takeWhile_cons, h93]
    have hdw : List.dropWhile isAlnum (T ++ 93 :: r) = 93 :: r := by
      rw [List.dropWhile_append_of_pos hal]
      simp [List.dropWhile_cons, h93]
    simp [linkAt, htw, hdw, hT]

theorem linkAt_length (s T r : Str) (h : linkAt s = some (T, r)) :
    r.length + T.length + 2 = s.length := by
  obtain ⟨_, _, rfl⟩ := (linkAt_spec s T r).1 h
  simp
  omega

/-- The matcher on `validLink` computes the direct reading `linkAt`. -/
theorem validLink_run (pos : Nat) (s : Str) (caps : List (Nat × Str)) :
    validLink.run ⟨pos, s, caps⟩ =
      match linkAt s with
      | some (T, r) => [⟨pos + T.length + 2, r, caps⟩]
      | none => [] := by
  have hk : ∀ pos c cs caps, isAlnum c = true →
      (Regex.byte 93).run ⟨pos, c :: cs, caps⟩ = [] := by
    intro pos c cs caps hc
    have : c ≠ 93 := by rintro rfl; revert hc; decide
    simp [Regex.run, this]
  cases s with
  | nil => simp [validLink, Regex.run, linkAt]
  | cons c cs =>
    by_cases hc : c = 91
    · subst hc
      have e : validLink.run ⟨pos, 91 :: cs, caps⟩ =
          (plusLoop alnum.run (cs.length + 1) ⟨pos + 1, cs, caps⟩).flatMap
            (Regex.byte 93).run := by
        simp [validLink, Regex.run]
      rw [e, plusLoop_alnum (Regex.byte 93).run hk (cs.length + 1) (pos + 1) cs caps
        (Nat.lt_succ_self _)]
      simp only [linkAt, true_and]
      by_cases hT : List.takeWhile isAlnum cs = []
      · simp [hT]
      · simp only [hT, if_false, ne_eq, not_false_eq_true, if_true]
        cases hd : List.dropWhile isAlnum cs with
        | nil => simp [Regex.run]
        | cons d r =>
          by_cases hd93 : d = 93
          · simp [hd93, Regex.run]; omega
          · simp [hd93, Regex.run]
    · simp [validLink, Regex.run, linkAt, hc]

theorem linkAll_nil : linkAll [] = [] := by
  rw [linkAll]

theorem linkAll_of_linkAt (s T r : Str) (h : linkAt s = some (T, r)) :
    linkAll s = linkFormat T ++ linkAll r := by
  cases s with
  | nil => simp [linkAt] at h
  | cons c cs =>
    rw [linkAll]
    split
    · rename_i T1 r1 h1
      rw [h] at h1
      simp only [Option.some.injEq, Prod.mk.injEq] at h1
      rw [h1.1, h1.2]
    · rename_i h1
      rw [h] at h1
      simp at h1

theorem linkAll_cons_none (c : Byte) (cs : Str) (h : linkAt (c :: cs) = none) :
    linkAll (c :: cs) = c :: linkAll cs := by
  rw [linkAll]
  split
  · rename_i T1 r1 h1
    rw [h] at h1
    simp at h1
  · rfl

theorem linkRepl_token (T : Str) : linkRepl (91 :: T ++ [93]) = linkFormat T := by
  simp [linkRepl]

theorem findFrom_start_le (re : Regex) (s : Str) : ∀ (q a0 : Nat) (t : Thread),
    findFrom re q s = some (a0, t) → q ≤ a0 := by
  induction s with
  | nil =>
    intro q a0 t
    rw [findFrom]
    cases (re.run ⟨q, [], []⟩).head? with
    | none => simp
    | some t1 => simp; intro e _; omega
  | cons d ds ihd =>
    intro q a0 t
    rw [findFrom]
    cases (re.run ⟨q, d :: ds, []⟩).head? with
    | none =>
      simp only
      intro hq
      have := ihd (q + 1) a0 t hq
      omega
    | some t1 => simp; intro e _; omega

/-- One round of the replace loop on `validLink`, in terms of `linkAll`. -/
theorem findFrom_validLink (s : Str) : ∀ pos : Nat,
    match findFrom validLink pos s with
    | none => linkAll s = s
    | some (a0, t) =>
      a0 < t.pos ∧ t.rest.length < s.length ∧
        linkAll s = s.take (a0 - pos) ++ linkRepl ((s.drop (a0 - pos)).take (t.pos - a0))
          ++ linkAll t.rest := by
  induction s with
  | nil =>
    intro pos
    simp [findFrom, validLink_run, linkAt, linkAll_nil]
  | cons c cs ih =>
    intro pos
    rw [findFrom, validLink_run]
    cases h : linkAt (c :: cs) with
    | some Tr =>
      obtain ⟨T, r⟩ := Tr
      have hlen := linkAt_length _ _ _ h
      obtain ⟨_, _, hs⟩ := (linkAt_spec _ _ _).1 h
      simp only [List.head?_cons]
      refine ⟨by omega, by omega, ?_⟩
      have e1 : pos + T.length + 2 - pos = (91 :: T ++ [93]).length := by
        simp
        omega
      rw [linkAll_of_linkAt _ _ _ h, Nat.sub_self, List.take_zero, List.drop_zero, e1, hs]
      have e2 : (91 :: T ++ 93 :: r) = (91 :: T ++ [93]) ++ r := by simp
      rw [e2, List.take_left, linkRepl_token]
      simp
    | none =>
      simp only [List.head?_nil]
      have := ih (pos + 1)
      cases hf : findFrom validLink (pos + 1) cs with
      | none =>
        rw [hf] at this
        simp only at this ⊢
        rw [linkAll_cons_none _ _ h, this]
      | some at1 =>
        obtain ⟨a0, t⟩ := at1
        rw [hf] at this
        simp only at this ⊢
        obtain ⟨h1, h2, h3⟩ := this
        have ha : pos + 1 ≤ a0 := findFrom_start_le _ _ _ _ _ hf
        refine ⟨h1, by simp; omega, ?_⟩
        have e3 : a0 - pos = (a0 - (pos + 1)) + 1 := by omega
        rw [linkAll_cons_none _ _ h, h3, e3, List.take_succ_cons, List.drop_succ_cons]
        simp

/-- The call of `ReplaceAllStringFunc` in `HTMLBody` computes `linkAll`. -/
theorem replaceAllLoop_validLink (fuel : Nat) : ∀ (pos : Nat) (s : Str), s.length < fuel →
    replaceAllLoop validLink linkRepl fuel pos s = linkAll s := by
  induction fuel with
  | zero => intro pos s h; omega
  | succ n ih =>
    intro pos s h
    rw [replaceAllLoop]
    have := findFrom_validLink s pos
    cases hf : findFrom validLink pos s with
    | none =>
      rw [hf] at this
      simp only at this ⊢
      exact this.symm
    | some at1 =>
      obtain ⟨a0, t⟩ := at1
      rw [hf] at this
      simp only at this ⊢
      obtain ⟨h1, h2, h3⟩ := this
      rw [if_pos h1, ih t.pos t.rest (by omega), h3]

theorem HTMLBody_eq (p : Page) :
    p.HTMLBody = replaceNewlines (lit "<br>") (linkAll (HTMLEscapeString p.Body)) := by
  have : (fun (m : Str) => linkFormat ((m.take (m.length - 1)).drop 1)) = linkRepl := rfl
  simp only [Page.HTMLBody, Regex.ReplaceAllStringFunc, this]
  rw [replaceAllLoop_validLink _ _ _ (Nat.lt_succ_self _)]

/-! ## Facts about escaping -/

theorem alnum_ne (c b : Byte) (hc : isAlnum c = true) (hb : isAlnum b = false) : c ≠ b := by
  rintro rfl
  simp [hc] at hb

theorem escapeByte_alnum (c : Byte) (hc : isAlnum c = true) : escapeByte c = [c] := by
  have h0 : c ≠ 0 := alnum_ne c 0 hc (by decide)
  have h34 : c ≠ 34 := alnum_ne c 34 hc (by decide)
  have h39 : c ≠ 39 := alnum_ne c 39 hc (by decide)
  have h38 : c ≠ 38 := alnum_ne c 38 hc (by decide)
  have h60 : c ≠ 60 := alnum_ne c 60 hc (by decide)
  have h62 : c ≠ 62 := alnum_ne c 62 hc (by decide)
  simp [escapeByte, h0, h34, h39, h38, h60, h62]

/-- A byte is either copied by the escaper (and is not `<`), or it is one of
the six special bytes and its escape has no bracket, no `<` and no newline. -/
theorem escapeByte_cases (c : Byte) :
    (escapeByte c = [c] ∧ c ≠ 60) ∨
    (isAlnum c = false ∧ c ≠ 91 ∧ c ≠ 93 ∧ c ≠ 10 ∧
      (∃ e es, escapeByte c = e :: es ∧ isAlnum e = false ∧ e ≠ 93) ∧
      ∀ b ∈ escapeByte c, b ≠ 91 ∧ b ≠ 93 ∧ b ≠ 60 ∧ b ≠ 10) := by
  by_cases h0 : c = 0
  · subst h0; right
    exact ⟨by decide, by decide, by decide, by decide, ⟨_, _, rfl, by decide, by decide⟩,
      by decide⟩
  by_cases h34 : c = 34
  · subst h34; right
    exact ⟨by decide, by decide, by decide, by decide, ⟨_, _, rfl, by decide, by decide⟩,
      by decide⟩
  by_cases h39 : c = 39
  · subst h39; right
    exact ⟨by decide, by decide, by decide, by decide, ⟨_, _, rfl, by decide, by decide⟩,
      by decide⟩
  by_cases h38 : c = 38
  · subst h38; right
    exact ⟨by decide, by decide, by decide, by decide, ⟨_, _, rfl, by decide, by decide⟩,
      by decide⟩
  by_cases h60 : c = 60
  · subst h60; right
    exact ⟨by decide, by decide, by decide, by decide, ⟨_, _, rfl, by decide, by decide⟩,
      by decide⟩
  by_cases h62 : c = 62
  · subst h62; right
    exact ⟨by decide, by decide, by decide, by decide, ⟨_, _, rfl, by decide, by decide⟩,
      by decide⟩
  left
  simp [escapeByte, h0, h34, h39, h38, h60, h62]

theorem escape_append (x y : Str) :
    HTMLEscapeString (x ++ y) = HTMLEscapeString x ++ HTMLEscapeString y := by
  induction x with
  | nil => simp [HTMLEscapeString]
  | cons c cs ih => simp [HTMLEscapeString, ih]

theorem escape_alnum (T : Str) (h : ∀ c ∈ T, isAlnum c = true) : HTMLEscapeString T = T := by
  induction T with
  | nil => simp [HTMLEscapeString]
  | cons c cs ih =>
    simp only [HTMLEscapeString, escapeByte_alnum c (h c (List.mem_cons_self _ _))]
    rw [ih (fun d hd => h d (List.mem_cons_of_mem _ hd))]
    rfl

theorem escape_no_lt (x : Str) : (60 : Byte) ∉ HTMLEscapeString x := by
  induction x with
  | nil => simp [HTMLEscapeString]
  | cons c cs ih =>
    simp only [HTMLEscapeString, List.mem_append, not_or]
    refine ⟨?_, ih⟩
    rcases escapeByte_cases c with ⟨h1, h2⟩ | ⟨_, _, _, _, _, h⟩
    · rw [h1]; simpa using Ne.symm h2
    · intro hm; exact (h 60 hm).2.2.1 rfl

theorem escape_newline (x : Str) (h : (10 : Byte) ∉ x) : (10 : Byte) ∉ HTMLEscapeString x := by
  induction x with
  | nil => simp [HTMLEscapeString]
  | cons c cs ih =>
    simp only [List.mem_cons, not_or] at h
    simp only [HTMLEscapeString, List.mem_append, not_or]
    refine ⟨?_, ih h.2⟩
    rcases escapeByte_cases c with ⟨h1, _⟩ | ⟨_, _, _, _, _, h2⟩
    · rw [h1]; simpa using h.1
    · intro hm; exact (h2 10 hm).2.2.2 rfl

/-! ## Facts about linking -/

theorem linkAt_append_some (s T r z : Str) (h : linkAt s = some (T, r)) :
    linkAt (s ++ z) = some (T, r ++ z) := by
  obtain ⟨h1, h2, rfl⟩ := (linkAt_spec _ _ _).1 h
  exact (linkAt_spec _ _ _).2 ⟨h1, h2, by simp⟩

/-- A failed match stays failed when the input is extended by a byte that is
neither alphanumeric nor `]`. -/
theorem linkAt_append_none (c b : Byte) (cs z : Str) (h : linkAt (c :: cs) = none)
    (hb : isAlnum b = false) (hb93 : b ≠ 93) : linkAt (c :: cs ++ b :: z) = none := by
  cases h1 : linkAt (c :: cs ++ b :: z) with
  | none => rfl
  | some Tr =>
    exfalso
    obtain ⟨T, r⟩ := Tr
    obtain ⟨hT, hal, he⟩ := (linkAt_spec _ _ _).1 h1
    simp only [List.cons_append, List.cons.injEq] at he
    obtain ⟨hc, he⟩ := he
    rcases List.append_eq_append_iff.1 he with ⟨a, ha1, ha2⟩ | ⟨a, ha1, ha2⟩
    · cases a with
      | nil =>
        simp only [List.nil_append, List.cons.injEq] at ha2
        exact hb93 ha2.1
      | cons d ds =>
        simp only [List.cons_append, List.cons.injEq] at ha2
        have : b ∈ T := by rw [ha1]; simp [ha2.1]
        simp [hal b this] at hb
    · cases a with
      | nil =>
        simp only [List.nil_append, List.cons.injEq] at ha2
        exact hb93 ha2.1.symm
      | cons d ds =>
        simp only [List.cons_append, List.cons.injEq] at ha2
        have : linkAt (c :: cs) = some (T, ds) :=
          (linkAt_spec _ _ _).2 ⟨hT, hal, by rw [hc, ha1, ← ha2.1]; simp⟩
        rw [h] at this
        simp at this

/-- Linking distributes over a cut in front of a byte that is neither
alphanumeric nor `]`: no token spans the cut. -/
theorem linkAll_append (n : Nat) : ∀ (x : Str) (b : Byte) (z : Str), x.length ≤ n →
    isAlnum b = false → b ≠ 93 → linkAll (x ++ b :: z) = linkAll x ++ linkAll (b :: z) := by
  induction n with
  | zero =>
    intro x b z hx _ _
    have : x = [] := List.eq_nil_of_length_eq_zero (by omega)
    subst this
    simp [linkAll_nil]
  | succ n ih =>
    intro x b z hx hb hb93
    cases x with
    | nil => simp [linkAll_nil]
    | cons c cs =>
      cases h : linkAt (c :: cs) with
      | none =>
        have h1 := linkAt_append_none c b cs z h hb hb93
        rw [linkAll_cons_none c cs h]
        rw [List.cons_append, linkAll_cons_none c _ (by simpa using h1)]
        rw [ih cs b z (by simpa using hx) hb hb93]
        simp
      | some Tr =>
        obtain ⟨T, r⟩ := Tr
        have hlen := linkAt_length _ _ _ h
        rw [linkAll_of_linkAt _ _ _ (linkAt_append_some _ _ _ (b :: z) h),
          linkAll_of_linkAt _ _ _ h, ih r b z (by simp at hx hlen; omega) hb hb93]
        simp

theorem hasLink_iff (s : Str) :
    hasLink s = true ↔
      ∃ pre T post, T ≠ [] ∧ (∀ c ∈ T, isAlnum c = true) ∧ s = pre ++ 91 :: T ++ 93 :: post := by
  induction s with
  | nil => simp [hasLink]
  | cons c cs ih =>
    simp only [hasLink, Bool.or_eq_true, ih]
    constructor
    · rintro (h | ⟨pre, T, post, h1, h2, h3⟩)
      · cases h1 : linkAt (c :: cs) with
        | none => simp [h1] at h
        | some Tr =>
          obtain ⟨T, r⟩ := Tr
          obtain ⟨hT, hal, he⟩ := (linkAt_spec _ _ _).1 h1
          exact ⟨[], T, r, hT, hal, by simpa using he⟩
      · exact ⟨c :: pre, T, post, h1, h2, by simp [h3]⟩
    · rintro ⟨pre, T, post, h1, h2, h3⟩
      cases pre with
      | nil =>
        left
        rw [(linkAt_spec (c :: cs) T post).2 ⟨h1, h2, by simpa using h3⟩]
        rfl
      | cons d ds =>
        right
        simp only [List.cons_append, List.cons.injEq] at h3
        exact ⟨ds, T, post, h1, h2, by simp [h3.2]⟩

theorem linkAll_of_not_hasLink (s : Str) (h : hasLink s = false) : linkAll s = s := by
  induction s with
  | nil => exact linkAll_nil
  | cons c cs ih =>
    simp only [hasLink, Bool.or_eq_false_iff] at h
    have h1 : linkAt (c :: cs) = none := by
      cases h2 : linkAt (c :: cs) with
      | none => rfl
      | some Tr => simp [h2] at h
    rw [linkAll_cons_none c cs h1, ih h.2]

theorem linkAt_isSome (c : Byte) (s : Str) :
    (linkAt (c :: s)).isSome = true ↔
      c = 91 ∧ s.takeWhile isAlnum ≠ [] ∧ (s.dropWhile isAlnum).head? = some 93 := by
  simp only [linkAt]
  by_cases hc : c = 91 ∧ s.takeWhile isAlnum ≠ []
  · rw [if_pos hc]
    cases hd : s.dropWhile isAlnum with
    | nil => simp
    | cons d r =>
      by_cases h93 : d = 93
      · simp [h93, hc.1, hc.2]
      · simp [h93]
  · rw [if_neg hc]
    simp only [Option.isSome_none, Bool.false_eq_true, false_iff]
    rintro ⟨h1, h2, _⟩
    exact hc ⟨h1, h2⟩

/-- Escaping changes neither the alphanumeric run at the head of a string
nor whether that run is followed by `]`. -/
theorem escape_run (s : Str) :
    (HTMLEscapeString s).takeWhile isAlnum = s.takeWhile isAlnum ∧
      (((HTMLEscapeString s).dropWhile isAlnum).head? = some 93 ↔
        (s.dropWhile isAlnum).head? = some 93) := by
  induction s with
  | nil => simp [HTMLEscapeString]
  | cons d ds ih =>
    by_cases hd : isAlnum d = true
    · simp only [HTMLEscapeString, escapeByte_alnum d hd, List.singleton_append,
        List.takeWhile_cons, List.dropWhile_cons, hd, if_true, ih.1, ih.2, and_self]
    · have hd1 : isAlnum d = false := by simpa using hd
      rcases escapeByte_cases d with ⟨h1, _⟩ | ⟨_, _, h93, _, ⟨e, es, he, hea, he93⟩, _⟩
      · simp [HTMLEscapeString, h1, List.takeWhile_cons, List.dropWhile_cons, hd1]
      · simp [HTMLEscapeString, he, List.takeWhile_cons, List.dropWhile_cons, hd1, hea, h93,
          he93]

theorem hasLink_cons_ne (b : Byte) (s : Str) (hb : b ≠ 91) : hasLink (b :: s) = hasLink s := by
  have : (linkAt (b :: s)).isSome = false := by
    cases h : (linkAt (b :: s)).isSome with
    | false => rfl
    | true => exact absurd ((linkAt_isSome b s).1 h).1 hb
  simp [hasLink, this]

theorem hasLink_append_ne (e s : Str) (he : ∀ b ∈ e, b ≠ 91) : hasLink (e ++ s) = hasLink s := by
  induction e with
  | nil => rfl
  | cons b bs ih =>
    rw [List.cons_append, hasLink_cons_ne _ _ (he b (List.mem_cons_self _ _)),
      ih (fun d hd => he d (List.mem_cons_of_mem _ hd))]

/-- Escaping neither creates nor destroys a link token. -/
theorem hasLink_escape (x : Str) : hasLink (HTMLEscapeString x) = hasLink x := by
  induction x with
  | nil => rfl
  | cons c cs ih =>
    rcases escapeByte_cases c with ⟨h1, _⟩ | ⟨_, h91, _, _, _, h⟩
    · simp only [HTMLEscapeString, h1, List.singleton_append, hasLink, ih]
      congr 1
      rw [Bool.eq_iff_iff, linkAt_isSome, linkAt_isSome, (escape_run cs).1, (escape_run cs).2]
    · rw [HTMLEscapeString, hasLink_append_ne _ _ (fun b hb => (h b hb).1),
        hasLink_cons_ne _ _ h91, ih]

/-! ## Facts about line breaks -/

theorem replaceNewlines_append (new x y : Str) :
    replaceNewlines new (x ++ y) = replaceNewlines new x ++ replaceNewlines new y := by
  induction x with
  | nil => simp [replaceNewlines]
  | cons c cs ih => simp [replaceNewlines, ih]

theorem replaceNewlines_id (new x : Str) (h : (10 : Byte) ∉ x) : replaceNewlines new x = x := by
  induction x with
  | nil => rfl
  | cons c cs ih =>
    simp only [List.mem_cons, not_or] at h
    have hc : c ≠ 10 := fun e => h.1 e.symm
    simp [replaceNewlines, hc, ih h.2]

theorem replaceNewlines_no_newline (new x : Str) (h : (10 : Byte) ∉ new) :
    (10 : Byte) ∉ replaceNewlines new x := by
  induction x with
  | nil => simp [replaceNewlines]
  | cons c cs ih =>
    simp only [replaceNewlines, List.mem_append, not_or]
    refine ⟨?_, ih⟩
    by_cases hc : c = 10
    · simpa [hc] using h
    · simpa [hc] using Ne.symm hc

theorem alnum_no_newline (T : Str) (hal : ∀ c ∈ T, isAlnum c = true) : (10 : Byte) ∉ T :=
  fun h => absurd (hal 10 h) (by decide)

theorem linkFormat_no_newline (T : Str) (hal : ∀ c ∈ T, isAlnum c = true) :
    (10 : Byte) ∉ linkFormat T := by
  have hT := alnum_no_newline T hal
  have h1 : (10 : Byte) ∉ lit "<a href=\"/view/" := by decide
  have h2 : (10 : Byte) ∉ lit "\">" := by decide
  have h3 : (10 : Byte) ∉ lit "</a>" := by decide
  simp [linkFormat, hT, h1, h2, h3]

theorem render_token (x T y : Str) (hT : T ≠ []) (hal : ∀ c ∈ T, isAlnum c = true) :
    render (x ++ 91 :: T ++ 93 :: y) = render x ++ linkFormat T ++ render y := by
  have e91 : HTMLEscapeString [91] = [91] := by decide
  have e93 : HTMLEscapeString [93] = [93] := by decide
  have e : HTMLEscapeString (x ++ 91 :: T ++ 93 :: y) =
      HTMLEscapeString x ++ 91 :: (T ++ 93 :: HTMLEscapeString y) := by
    have : x ++ 91 :: T ++ 93 :: y = x ++ ([91] ++ (T ++ ([93] ++ y))) := by simp
    rw [this]
    simp only [escape_append, e91, e93, escape_alnum T hal]
    simp
  have hl : linkAt (91 :: (T ++ 93 :: HTMLEscapeString y)) = some (T, HTMLEscapeString y) :=
    (linkAt_spec _ _ _).2 ⟨hT, hal, by simp⟩
  simp only [render]
  rw [e, linkAll_append _ _ _ _ (le_refl _) (by decide) (by decide),
    linkAll_of_linkAt _ _ _ hl]
  simp only [replaceNewlines_append, replaceNewlines_id _ _ (linkFormat_no_newline T hal),
    List.append_assoc]

theorem render_newline (x y : Str) :
    render (x ++ 10 :: y) = render x ++ lit "<br>" ++ render y := by
  have e10 : HTMLEscapeString [10] = [10] := by decide
  have e : HTMLEscapeString (x ++ 10 :: y) =
      HTMLEscapeString x ++ 10 :: HTMLEscapeString y := by
    have : x ++ 10 :: y = x ++ ([10] ++ y) := by simp
    rw [this]
    simp only [escape_append, e10]
    simp
  have hl : linkAt (10 :: HTMLEscapeString y) = none := by
    simp [linkAt]
  simp only [render]
  rw [e, linkAll_append _ _ _ _ (le_refl _) (by decide) (by decide),
    linkAll_cons_none _ _ hl]
  simp [replaceNewlines_append, replaceNewlines]

theorem render_of_not_hasLink (x : Str) (h : hasLink x = false) :
    render x = replaceNewlines (lit "<br>") (HTMLEscapeString x) := by
  rw [render, linkAll_of_not_hasLink _ (by rw [hasLink_escape, h])]

/-! ## Facts about `validPath` -/

theorem str_run (w : Str) : ∀ (pos : Nat) (s : Str) (caps : List (Nat × Str)),
    (Regex.str w).run ⟨pos, s, caps⟩ =
      if w <+: s then [⟨pos + w.length, s.drop w.length, caps⟩] else [] := by
  induction w with
  | nil => intro pos s caps; simp [Regex.str, Regex.run]
  | cons b bs ih =>
    intro pos s caps
    cases s with
    | nil => simp [Regex.str, Regex.run]
    | cons c cs =>
      by_cases hc : c = b
      · subst hc
        simp only [Regex.str, Regex.run, if_true, List.flatMap_cons, List.flatMap_nil,
          List.append_nil, ih, List.cons_prefix_cons, true_and, List.length_cons,
          List.drop_succ_cons]
        by_cases hp : bs <+: cs
        · simp [hp]; omega
        · simp [hp]
      · have hb : ¬ b = c := fun e => hc e.symm
        simp [Regex.str, Regex.run, hc, hb]

theorem takeWhile_eq_self_of_dropWhile_nil (s : Str) (h : s.dropWhile isAlnum = []) :
    s.takeWhile isAlnum = s := by
  have := List.takeWhile_append_dropWhile isAlnum s
  rw [h, List.append_nil] at this
  exact this

/-- The matcher on the part `/([a-zA-Z0-9]+)$` of `validPath` computes `titleAt`. -/
theorem title_run (pos : Nat) (s2 : Str) (caps : List (Nat × Str)) :
    (Regex.cat (.byte 47) (.cat (.group 2 (.plus alnum)) .eot)).run ⟨pos, s2, caps⟩ =
      match titleAt s2 with
      | some t => [⟨pos + 1 + t.length, [], (2, t) :: caps⟩]
      | none => [] := by
  cases s2 with
  | nil => simp [Regex.run, titleAt]
  | cons d s3 =>
    by_cases hd : d = 47
    · subst hd
      have e : (Regex.cat (.byte 47) (.cat (.group 2 (.plus alnum)) .eot)).run
            ⟨pos, 47 :: s3, caps⟩ =
          (plusLoop alnum.run (s3.length + 1) ⟨pos + 1, s3, caps⟩).flatMap (fun t1 =>
            Regex.eot.run ⟨t1.pos, t1.rest, (2, s3.take (t1.pos - (pos + 1))) :: t1.caps⟩) := by
        simp [Regex.run, List.flatMap_map]
      rw [e, plusLoop_alnum _ (by intro q c cs caps1 _; simp [Regex.run]) (s3.length + 1)
        (pos + 1) s3 caps (Nat.lt_succ_self _)]
      simp only [titleAt, true_and]
      by_cases hT : List.takeWhile isAlnum s3 = []
      · have : ¬ (s3 ≠ [] ∧ ∀ c ∈ s3, isAlnum c = true) := by
          rintro ⟨h1, h2⟩
          cases s3 with
          | nil => exact h1 rfl
          | cons x xs =>
            simp [List.takeWhile_cons, h2 x (List.mem_cons_self _ _)] at hT
        simp [hT, this]
      · by_cases hD : List.dropWhile isAlnum s3 = []
        · have hs3 := takeWhile_eq_self_of_dropWhile_nil s3 hD
          have hal : ∀ c ∈ s3, isAlnum c = true := by
            intro c hc
            rw [← hs3] at hc
            exact List.mem_takeWhile_imp hc
          have hne : s3 ≠ [] := by
            rintro rfl
            simp at hT
          have hpos : pos + 1 + s3.length - (pos + 1) = s3.length := by omega
          have hcond : (s3 ≠ [] ∧ ∀ c ∈ s3, isAlnum c = true) := ⟨hne, hal⟩
          simp only [hT, if_false, hD, Regex.run, if_true, hs3, hpos, List.take_length]
          rw [if_pos hcond, if_neg hne]
        · have : ¬ (s3 ≠ [] ∧ ∀ c ∈ s3, isAlnum c = true) := by
            rintro ⟨_, h2⟩
            exact hD (List.dropWhile_eq_nil_iff.2 h2)
          simp [hT, hD, Regex.run, this]
    · have hd1 : ¬ (d = 47 ∧ s3 ≠ [] ∧ ∀ c ∈ s3, isAlnum c = true) := fun h => hd h.1
      simp [Regex.run, titleAt, hd]

theorem titleAt_spec (s2 t : Str) :
    titleAt s2 = some t ↔ s2 = 47 :: t ∧ t ≠ [] ∧ ∀ c ∈ t, isAlnum c = true := by
  cases s2 with
  | nil => simp [titleAt]
  | cons d s3 =>
    simp only [titleAt]
    constructor
    · intro h
      split at h
      · rename_i hc
        simp only [Option.some.injEq] at h
        subst h
        exact ⟨by rw [hc.1], hc.2.1, hc.2.2⟩
      · simp at h
    · rintro ⟨h1, h2, h3⟩
      simp only [List.cons.injEq] at h1
      obtain ⟨rfl, rfl⟩ := h1
      rw [if_pos ⟨rfl, h2, h3⟩]

theorem actionAt_spec (a s1 b t : Str) :
    actionAt a s1 = some (b, t) ↔
      b = a ∧ s1 = a ++ 47 :: t ∧ t ≠ [] ∧ ∀ c ∈ t, isAlnum c = true := by
  simp only [actionAt]
  constructor
  · intro h
    split at h
    · rename_i hp
      cases ht : titleAt (s1.drop a.length) with
      | none => simp [ht] at h
      | some t1 =>
        simp only [ht, Option.map_some', Option.some.injEq, Prod.mk.injEq] at h
        obtain ⟨rfl, rfl⟩ := h
        obtain ⟨h1, h2, h3⟩ := (titleAt_spec _ _).1 ht
        refine ⟨rfl, ?_, h2, h3⟩
        rw [← h1]
        exact (List.prefix_iff_eq_append.1 hp).symm
    · simp at h
  · rintro ⟨rfl, rfl, h2, h3⟩
    have : titleAt (47 :: t) = some t := (titleAt_spec _ _).2 ⟨rfl, h2, h3⟩
    simp [this]

/-- The matcher on one alternative of `validPath` computes `actionAt`. -/
theorem action_run (a s1 : Str) :
    (((Regex.str a).run ⟨1, s1, []⟩).map (fun t1 =>
        (⟨t1.pos, t1.rest, (1, s1.take (t1.pos - 1)) :: t1.caps⟩ : Thread))).flatMap
      (Regex.cat (.byte 47) (.cat (.group 2 (.plus alnum)) .eot)).run =
      match actionAt a s1 with
      | some at1 => [⟨1 + at1.1.length + 1 + at1.2.length, [], [(2, at1.2), (1, at1.1)]⟩]
      | none => [] := by
  rw [str_run]
  by_cases hp : a <+: s1
  · have htake : List.take a.length s1 = a := (List.prefix_iff_eq_take.1 hp).symm
    simp only [hp, if_true, List.map_cons, List.map_nil, List.flatMap_cons, List.flatMap_nil,
      List.append_nil, title_run, actionAt, Nat.add_sub_cancel_left, htake]
    cases titleAt (s1.drop a.length) with
    | none => simp
    | some t => simp
  · simp [hp, actionAt]

theorem validPath_run (s : Str) :
    (validPath.run ⟨0, s, []⟩).head? =
      (pathAt s).map (fun at1 =>
        (⟨1 + at1.1.length + 1 + at1.2.length, [], [(2, at1.2), (1, at1.1)]⟩ : Thread)) := by
  cases s with
  | nil => simp [validPath, Regex.run, pathAt]
  | cons c s1 =>
    by_cases hc : c = 47
    · subst hc
      have e : validPath.run ⟨0, 47 :: s1, []⟩ =
          ((((Regex.str (lit "edit")).run ⟨1, s1, []⟩).map (fun t1 =>
            (⟨t1.pos, t1.rest, (1, s1.take (t1.pos - 1)) :: t1.caps⟩ : Thread))).flatMap
              (Regex.cat (.byte 47) (.cat (.group 2 (.plus alnum)) .eot)).run) ++
          (((((Regex.str (lit "save")).run ⟨1, s1, []⟩).map (fun t1 =>
            (⟨t1.pos, t1.rest, (1, s1.take (t1.pos - 1)) :: t1.caps⟩ : Thread))).flatMap
              (Regex.cat (.byte 47) (.cat (.group 2 (.plus alnum)) .eot)).run) ++
          ((((Regex.str (lit "view")).run ⟨1, s1, []⟩).map (fun t1 =>
            (⟨t1.pos, t1.rest, (1, s1.take (t1.pos - 1)) :: t1.caps⟩ : Thread))).flatMap
              (Regex.cat (.byte 47) (.cat (.group 2 (.plus alnum)) .eot)).run)) := by
        simp only [validPath, Regex.run, if_true, List.flatMap_cons, List.flatMap_nil,
          List.append_nil, List.map_append, List.flatMap_append, Nat.zero_add]
      rw [e, action_run, action_run, action_run]
      simp only [pathAt, if_true]
      cases actionAt (lit "edit") s1 <;> cases actionAt (lit "save") s1 <;>
        cases actionAt (lit "view") s1 <;> simp
    · simp [validPath, Regex.run, pathAt, hc]

theorem validPath_run_pos (pos : Nat) (s : Str) (caps : List (Nat × Str)) :
    validPath.run ⟨pos + 1, s, caps⟩ = [] := by
  simp [validPath, Regex.run]

theorem findFrom_validPath_pos (s : Str) : ∀ pos : Nat, findFrom validPath (pos + 1) s = none := by
  induction s with
  | nil => intro pos; simp [findFrom, validPath_run_pos]
  | cons c cs ih => intro pos; simp [findFrom, validPath_run_pos, ih]

theorem pathAt_spec (s a t : Str) :
    pathAt s = some (a, t) ↔
      a ∈ [lit "edit", lit "save", lit "view"] ∧ t ≠ [] ∧ (∀ c ∈ t, isAlnum c = true) ∧
        s = 47 :: a ++ 47 :: t := by
  have hedit : lit "edit" = [101, 100, 105, 116] := by decide
  have hsave : lit "save" = [115, 97, 118, 101] := by decide
  have hview : lit "view" = [118, 105, 101, 119] := by decide
  constructor
  · intro h
    cases s with
    | nil => simp [pathAt] at h
    | cons c s1 =>
      simp only [pathAt] at h
      split at h
      · rename_i hc
        subst hc
        simp only [Option.or_eq_some] at h
        rcases h with h | ⟨_, h | ⟨_, h⟩⟩
        · obtain ⟨rfl, rfl, h2, h3⟩ := (actionAt_spec _ _ _ _).1 h
          exact ⟨by simp, h2, h3, rfl⟩
        · obtain ⟨rfl, rfl, h2, h3⟩ := (actionAt_spec _ _ _ _).1 h
          exact ⟨by simp, h2, h3, rfl⟩
        · obtain ⟨rfl, rfl, h2, h3⟩ := (actionAt_spec _ _ _ _).1 h
          exact ⟨by simp, h2, h3, rfl⟩
      · simp at h
  · rintro ⟨ha, h2, h3, rfl⟩
    simp only [List.mem_cons, List.mem_singleton, List.not_mem_nil, or_false] at ha
    simp only [pathAt, List.cons_append, if_true]
    rcases ha with rfl | rfl | rfl
    · rw [(actionAt_spec _ _ _ _).2 ⟨rfl, rfl, h2, h3⟩]
      rfl
    · have e1 : actionAt (lit "edit") (lit "save" ++ 47 :: t) = none := by
        simp [actionAt, hedit, hsave]
      rw [e1, (actionAt_spec _ _ _ _).2 ⟨rfl, rfl, h2, h3⟩]
      rfl
    · have e1 : actionAt (lit "edit") (lit "view" ++ 47 :: t) = none := by
        simp [actionAt, hedit, hview]
      have e2 : actionAt (lit "save") (lit "view" ++ 47 :: t) = none := by
        simp [actionAt, hsave, hview]
      rw [e1, e2, (actionAt_spec _ _ _ _).2 ⟨rfl, rfl, h2, h3⟩]
      rfl

/-- The call `validPath.FindStringSubmatch` computes the direct reading `pathAt`:
the result is nil, or the whole path, the action and the title. -/
theorem validPath_find (s : Str) :
    validPath.FindStringSubmatch s = (pathAt s).map (fun at1 => [s, at1.1, at1.2]) := by
  have hnum : validPath.numCap = 2 := by decide
  have hrun := validPath_run s
  cases hp : pathAt s with
  | none =>
    rw [hp] at hrun
    simp only [Option.map_none'] at hrun
    cases s with
    | nil => simp [Regex.FindStringSubmatch, findFrom, hrun]
    | cons c cs => simp [Regex.FindStringSubmatch, findFrom, hrun, findFrom_validPath_pos]
  | some at1 =>
    obtain ⟨a, t⟩ := at1
    rw [hp] at hrun
    simp only [Option.map_some'] at hrun
    obtain ⟨_, _, _, hs⟩ := (pathAt_spec _ _ _).1 hp
    have hlen : 1 + a.length + 1 + t.length = s.length := by
      rw [hs]
      simp
      omega
    have hf : findFrom validPath 0 s = some (0, ⟨s.length, [], [(2, t), (1, a)]⟩) := by
      rw [← hlen]
      cases s with
      | nil => simp at hs
      | cons c cs => simp [findFrom, hrun]
    simp [Regex.FindStringSubmatch, hf, hnum, List.range_succ, capture]

/-! ## Where a `<` can stand in the output -/

theorem AllLt_split (G : Str → Prop) (s : Str) (h : AllLt G s) :
    ∀ pre post, s = pre ++ 60 :: post → G (60 :: post) := by
  induction s with
  | nil => intro pre post e; simp at e
  | cons c r ih =>
    intro pre post e
    cases pre with
    | nil =>
      simp only [List.nil_append, List.cons.injEq] at e
      obtain ⟨rfl, rfl⟩ := e
      exact h.1 rfl
    | cons d ds =>
      simp only [List.cons_append, List.cons.injEq] at e
      exact ih h.2 ds post e.2

theorem AllLt_append (G : Str → Prop) (a r : Str) (ha : (60 : Byte) ∉ a) (hr : AllLt G r) :
    AllLt G (a ++ r) := by
  induction a with
  | nil => exact hr
  | cons c cs ih =>
    simp only [List.mem_cons, not_or] at ha
    exact ⟨fun e => absurd e.symm ha.1, ih ha.2⟩

theorem alnum_no_lt (T : Str) (hal : ∀ c ∈ T, isAlnum c = true) : (60 : Byte) ∉ T :=
  fun h => absurd (hal 60 h) (by decide)

theorem linkFormat_eq (T rest : Str) :
    linkFormat T ++ rest =
      60 :: ((lit "a href=\"/view/" ++ T ++ lit "\">" ++ T) ++ 60 :: (lit "/a>" ++ rest)) := by
  have h1 : lit "<a href=\"/view/" = 60 :: lit "a href=\"/view/" := by decide
  have h2 : lit "</a>" = 60 :: lit "/a>" := by decide
  simp [linkFormat, h1, h2]

theorem AllLt_linkFormat (T rest : Str) (hT : T ≠ []) (hal : ∀ c ∈ T, isAlnum c = true)
    (hr : AllLt Inserted rest) : AllLt Inserted (linkFormat T ++ rest) := by
  have hlt := alnum_no_lt T hal
  have h1 : (60 : Byte) ∉ lit "a href=\"/view/" := by decide
  have h2 : (60 : Byte) ∉ lit "\">" := by decide
  have h3 : (60 : Byte) ∉ lit "/a>" := by decide
  have h4 : lit "</a>" = 60 :: lit "/a>" := by decide
  have hA : (60 : Byte) ∉ lit "a href=\"/view/" ++ T ++ lit "\">" ++ T := by
    simp [h1, h2, hlt]
  have e := linkFormat_eq T rest
  rw [e]
  refine ⟨fun _ => Or.inl ⟨T, rest, hT, hal, e.symm⟩, ?_⟩
  apply AllLt_append _ _ _ hA
  refine ⟨fun _ => Or.inr (Or.inl ?_), AllLt_append _ _ _ h3 hr⟩
  rw [h4]
  exact ⟨rest, by simp⟩

theorem AllLt_linked (n : Nat) : ∀ s : Str, s.length ≤ n → (60 : Byte) ∉ s →
    AllLt Inserted (replaceNewlines (lit "<br>") (linkAll s)) := by
  induction n with
  | zero =>
    intro s hs _
    have : s = [] := List.eq_nil_of_length_eq_zero (by omega)
    subst this
    simp [linkAll_nil, replaceNewlines, AllLt]
  | succ n ih =>
    intro s hs hlt
    cases s with
    | nil => simp [linkAll_nil, replaceNewlines, AllLt]
    | cons c cs =>
      simp only [List.mem_cons, not_or] at hlt
      cases h : linkAt (c :: cs) with
      | none =>
        have hcs := ih cs (by simpa using hs) hlt.2
        rw [linkAll_cons_none c cs h]
        simp only [replaceNewlines]
        generalize replaceNewlines (lit "<br>") (linkAll cs) = R at hcs ⊢
        by_cases hc : c = 10
        · subst hc
          have hbr : lit "<br>" = 60 :: lit "br>" := by decide
          have h3 : (60 : Byte) ∉ lit "br>" := by decide
          simp only [if_true]
          have hp : lit "<br>" <+: lit "<br>" ++ R := List.prefix_append _ _
          rw [hbr, List.cons_append]
          refine ⟨fun _ => Or.inr (Or.inr ?_), AllLt_append _ _ _ h3 hcs⟩
          rw [← List.cons_append, ← hbr]
          exact hp
        · simp only [hc, if_false, List.singleton_append]
          exact ⟨fun e => absurd e.symm hlt.1, hcs⟩
      | some Tr =>
        obtain ⟨T, r⟩ := Tr
        have hlen := linkAt_length _ _ _ h
        obtain ⟨hT, hal, he⟩ := (linkAt_spec _ _ _).1 h
        have hr : (60 : Byte) ∉ r := by
          intro hm
          have : (60 : Byte) ∈ c :: cs := by rw [he]; simp [hm]
          simp only [List.mem_cons] at this
          exact this.elim hlt.1 hlt.2
        have hrec := ih r (by simp at hs hlen; omega) hr
        rw [linkAll_of_linkAt _ _ _ h, replaceNewlines_append,
          replaceNewlines_id _ _ (linkFormat_no_newline T hal)]
        exact AllLt_linkFormat T _ hT hal hrec

/-- Every `<` of the rendered output starts something the renderer inserted. -/
theorem render_AllLt (x : Str) : AllLt Inserted (render x) :=
  AllLt_linked _ _ (le_refl _) (escape_no_lt x)

theorem Inserted_starts (t : Str) (h : Inserted t) :
    lit "<a href=\"/view/" <+: t ∨ lit "</a>" <+: t ∨ lit "<br>" <+: t := by
  rcases h with ⟨T, rest, _, _, e⟩ | h | h
  · left
    rw [e, linkFormat]
    exact ⟨T ++ lit "\">" ++ T ++ lit "</a>" ++ rest, by simp⟩
  · exact Or.inr (Or.inl h)
  · exact Or.inr (Or.inr h)

/-! ## The renderer: claims -/

theorem no_token_of_not_hasLink (x : Str) (h : hasLink x = false) :
    ¬ ∃ pre T post : Str, T ≠ [] ∧ (∀ c ∈ T, isAlnum c = true) ∧
      x = pre ++ lit "[" ++ T ++ lit "]" ++ post := by
  rintro ⟨pre, T, post, h1, h2, h3⟩
  have h91 : lit "[" = [91] := by decide
  have h93 : lit "]" = [93] := by decide
  have : hasLink x = true := (hasLink_iff x).2 ⟨pre, T, post, h1, h2, by rw [h3]; simp [h91, h93]⟩
  rw [h] at this
  exact Bool.noConfusion this

theorem not_hasLink_of_no_token (x : Str)
    (hno : ¬ ∃ pre T post : Str, T ≠ [] ∧ (∀ c ∈ T, isAlnum c = true) ∧
      x = pre ++ lit "[" ++ T ++ lit "]" ++ post) : hasLink x = false := by
  have h91 : lit "[" = [91] := by decide
  have h93 : lit "]" = [93] := by decide
  cases h : hasLink x with
  | false => rfl
  | true =>
    exfalso
    obtain ⟨pre, T, post, h1, h2, h3⟩ := (hasLink_iff x).1 h
    exact hno ⟨pre, T, post, h1, h2, by rw [h3]; simp [h91, h93]⟩

/-- C2: body content is never interpreted as markup.  Every `<` of the output
of `HTMLBody` is the first byte of one of the three strings the renderer
inserts, `<a href="/view/`, `</a>` or `<br>`; the output never contains
`<script`; and the body `<script>` renders as `&lt;script&gt;`. -/
theorem HTMLBody_no_markup (p : Page) :
    (∀ pre post : Str, p.HTMLBody = pre ++ 60 :: post →
      lit "<a href=\"/view/" <+: 60 :: post ∨ lit "</a>" <+: 60 :: post ∨
        lit "<br>" <+: 60 :: post) ∧
    ¬ (lit "<script" <:+: p.HTMLBody) ∧
    (Page.mk p.Title (lit "<script>")).HTMLBody = lit "&lt;script&gt;" := by
  have key : ∀ pre post : Str, p.HTMLBody = pre ++ 60 :: post →
      lit "<a href=\"/view/" <+: 60 :: post ∨ lit "</a>" <+: 60 :: post ∨
        lit "<br>" <+: 60 :: post := by
    intro pre post e
    rw [HTMLBody_eq] at e
    exact Inserted_starts _ (AllLt_split _ _ (render_AllLt p.Body) pre post e)
  refine ⟨key, ?_, by show (Page.mk [] (lit "<script>")).HTMLBody = _; decide⟩
  rintro ⟨pre, post, e⟩
  have hs : lit "<script" = 60 :: lit "script" := by decide
  have h1 : lit "<a href=\"/view/" = 60 :: 97 :: lit " href=\"/view/" := by decide
  have h2 : lit "</a>" = 60 :: 47 :: lit "a>" := by decide
  have h3 : lit "<br>" = 60 :: 98 :: lit "r>" := by decide
  have h4 : lit "script" = 115 :: lit "cript" := by decide
  have := key pre (lit "script" ++ post) (by rw [← e, hs]; simp)
  rw [h1, h2, h3, h4] at this
  simp at this

theorem HTMLBody_no_markup_witness :
    (Page.mk [] (lit "a\n<b")).HTMLBody = lit "a" ++ 60 :: lit "br>&lt;b" ∧
    (lit "<a href=\"/view/" <+: 60 :: lit "br>&lt;b" ∨ lit "</a>" <+: 60 :: lit "br>&lt;b" ∨
      lit "<br>" <+: 60 :: lit "br>&lt;b") :=
  ⟨by decide, (HTMLBody_no_markup (Page.mk [] (lit "a\n<b"))).1 (lit "a") (lit "br>&lt;b")
    (by decide)⟩

/-- C3: every bracketed alphanumeric token becomes a link, whatever surrounds
it: `HTMLBody (x ++ "[" ++ T ++ "]" ++ y)` is `HTMLBody x`, the anchor
`<a href="/view/T">T</a>`, `HTMLBody y`.  In particular `[Home]` renders as
`<a href="/view/Home">Home</a>` and `[A][B]` as two anchors, left to right. -/
theorem HTMLBody_token_linked (title : Str) :
    (∀ x T y : Str, T ≠ [] → (∀ c ∈ T, isAlnum c = true) →
      (Page.mk title (x ++ lit "[" ++ T ++ lit "]" ++ y)).HTMLBody =
        (Page.mk title x).HTMLBody ++ lit "<a href=\"/view/" ++ T ++ lit "\">" ++ T
          ++ lit "</a>" ++ (Page.mk title y).HTMLBody) ∧
    (Page.mk title (lit "[Home]")).HTMLBody = lit "<a href=\"/view/Home\">Home</a>" ∧
    (Page.mk title (lit "[A][B]")).HTMLBody =
      lit "<a href=\"/view/A\">A</a>" ++ lit "<a href=\"/view/B\">B</a>" := by
  refine ⟨?_, by show (Page.mk [] (lit "[Home]")).HTMLBody = _; decide,
    by show (Page.mk [] (lit "[A][B]")).HTMLBody = _; decide⟩
  intro x T y hT hal
  have h91 : lit "[" = [91] := by decide
  have h93 : lit "]" = [93] := by decide
  have e : x ++ lit "[" ++ T ++ lit "]" ++ y = x ++ 91 :: T ++ 93 :: y := by
    simp [h91, h93]
  simp only [HTMLBody_eq, e]
  have := render_token x T y hT hal
  simp only [render, linkFormat] at this
  rw [this]
  simp

theorem HTMLBody_token_linked_witness :
    (Page.mk [] (lit "see <" ++ lit "[" ++ lit "Go1" ++ lit "]" ++ lit "\n[x")).HTMLBody =
      (Page.mk [] (lit "see <")).HTMLBody ++ lit "<a href=\"/view/" ++ lit "Go1" ++ lit "\">"
        ++ lit "Go1" ++ lit "</a>" ++ (Page.mk [] (lit "\n[x")).HTMLBody :=
  (HTMLBody_token_linked []).1 (lit "see <") (lit "Go1") (lit "\n[x") (by decide) (by decide)

/-- C4: every newline is replaced by a line break and nothing else changes:
`HTMLBody (x ++ "\n" ++ y)` is `HTMLBody x`, `<br>`, `HTMLBody y`; the output
never contains a newline byte; and `a\nb` renders as `a<br>b`. -/
theorem HTMLBody_newline (title : Str) :
    (∀ x y : Str, (Page.mk title (x ++ lit "\n" ++ y)).HTMLBody =
      (Page.mk title x).HTMLBody ++ lit "<br>" ++ (Page.mk title y).HTMLBody) ∧
    (∀ body : Str, (10 : Byte) ∉ (Page.mk title body).HTMLBody) ∧
    (Page.mk title (lit "a\nb")).HTMLBody = lit "a<br>b" := by
  refine ⟨?_, ?_, by show (Page.mk [] (lit "a\nb")).HTMLBody = _; decide⟩
  · intro x y
    have h10 : lit "\n" = [10] := by decide
    have e : x ++ lit "\n" ++ y = x ++ 10 :: y := by simp [h10]
    simp only [HTMLBody_eq, e]
    exact render_newline x y
  · intro body
    rw [HTMLBody_eq]
    exact replaceNewlines_no_newline _ _ (by decide)

/-- C5: a body with no newline and no token `[` + alphanumerics + `]` renders as
its HTML-escaped form; escaping such a body creates neither a newline nor a
token, so linking and line breaking leave it as it is. -/
theorem HTMLBody_plain (title x : Str) (hnl : (10 : Byte) ∉ x)
    (hno : ¬ ∃ pre T post : Str, T ≠ [] ∧ (∀ c ∈ T, isAlnum c = true) ∧
      x = pre ++ lit "[" ++ T ++ lit "]" ++ post) :
    (Page.mk title x).HTMLBody = HTMLEscapeString x ∧
    (10 : Byte) ∉ HTMLEscapeString x ∧
    (¬ ∃ pre T post : Str, T ≠ [] ∧ (∀ c ∈ T, isAlnum c = true) ∧
      HTMLEscapeString x = pre ++ lit "[" ++ T ++ lit "]" ++ post) ∧
    validLink.ReplaceAllStringFunc (HTMLEscapeString x)
      (fun m => linkFormat ((m.take (m.length - 1)).drop 1)) = HTMLEscapeString x ∧
    replaceNewlines (lit "<br>") (HTMLEscapeString x) = HTMLEscapeString x := by
  have hx : hasLink x = false := not_hasLink_of_no_token x hno
  have he : hasLink (HTMLEscapeString x) = false := by rw [hasLink_escape, hx]
  have hnl1 := escape_newline x hnl
  have hid := replaceNewlines_id (lit "<br>") _ hnl1
  refine ⟨?_, hnl1, ?_, ?_, hid⟩
  · rw [HTMLBody_eq]
    have := render_of_not_hasLink x hx
    rw [render] at this
    rw [this, hid]
  · exact no_token_of_not_hasLink _ he
  · have hr : (fun (m : Str) => linkFormat ((m.take (m.length - 1)).drop 1)) = linkRepl := rfl
    rw [hr, Regex.ReplaceAllStringFunc, replaceAllLoop_validLink _ _ _ (Nat.lt_succ_self _),
      linkAll_of_not_hasLink _ he]

theorem HTMLBody_plain_witness :
    (Page.mk [] (lit "a <b> [x y] & []")).HTMLBody =
      HTMLEscapeString (lit "a <b> [x y] & []") :=
  (HTMLBody_plain [] (lit "a <b> [x y] & []") (by decide)
    (no_token_of_not_hasLink _ (by decide))).1

/-- A token `[s]` whose inner text has no bracket and is empty or not
alphanumeric throughout contains no link token. -/
theorem not_hasLink_bracket (s : Str) (hs : s = [] ∨ ∃ c ∈ s, isAlnum c = false)
    (h91 : (91 : Byte) ∉ s) (h93 : (93 : Byte) ∉ s) : hasLink (91 :: s ++ [93]) = false := by
  cases h : hasLink (91 :: s ++ [93]) with
  | false => rfl
  | true =>
    exfalso
    obtain ⟨pre, T, post, hT, hal, he⟩ := (hasLink_iff _).1 h
    have hT93 : (93 : Byte) ∉ T := fun hm => absurd (hal 93 hm) (by decide)
    cases pre with
    | nil =>
      simp only [List.nil_append, List.cons_append, List.cons.injEq, true_and] at he
      rcases List.append_eq_append_iff.1 he with ⟨a, ha1, ha2⟩ | ⟨a, ha1, ha2⟩
      · cases a with
        | nil =>
          simp only [List.append_nil] at ha1
          subst ha1
          rcases hs with rfl | ⟨c, hc, hc1⟩
          · exact hT rfl
          · simp [hal c hc] at hc1
        | cons d ds =>
          simp only [List.cons_append, List.cons.injEq] at ha2
          exact hT93 (by rw [ha1, ← ha2.1]; simp)
      · cases a with
        | nil =>
          simp only [List.append_nil] at ha1
          subst ha1
          rcases hs with rfl | ⟨c, hc, hc1⟩
          · exact hT rfl
          · simp [hal c hc] at hc1
        | cons d ds =>
          simp only [List.cons_append, List.cons.injEq] at ha2
          exact h93 (by rw [ha1, ← ha2.1]; simp)
    | cons d ds =>
      simp only [List.cons_append, List.cons.injEq] at he
      have : (91 : Byte) ∈ s ++ [93] := by rw [he.2]; simp
      simp only [List.mem_append, List.mem_singleton] at this
      rcases this with h1 | h1
      · exact h91 h1
      · exact absurd h1 (by decide)

/-- C9, as the code has it: for `s` empty or with a non-alphanumeric byte, the
body `[s]` renders as its escaped form with `<br>` for each newline whenever
`[s]` contains no token `[` + alphanumerics + `]`, and so whenever `s`
contains no bracket. -/
theorem HTMLBody_bracket (title s : Str) (hs : s = [] ∨ ∃ c ∈ s, isAlnum c = false) :
    ((¬ ∃ pre T post : Str, T ≠ [] ∧ (∀ c ∈ T, isAlnum c = true) ∧
        lit "[" ++ s ++ lit "]" = pre ++ lit "[" ++ T ++ lit "]" ++ post) →
      (Page.mk title (lit "[" ++ s ++ lit "]")).HTMLBody =
        replaceNewlines (lit "<br>") (HTMLEscapeString (lit "[" ++ s ++ lit "]"))) ∧
    ((91 : Byte) ∉ s → (93 : Byte) ∉ s →
      (Page.mk title (lit "[" ++ s ++ lit "]")).HTMLBody =
        replaceNewlines (lit "<br>") (HTMLEscapeString (lit "[" ++ s ++ lit "]"))) := by
  have key : ∀ x : Str, hasLink x = false → (Page.mk title x).HTMLBody =
      replaceNewlines (lit "<br>") (HTMLEscapeString x) := by
    intro x hx
    rw [HTMLBody_eq]
    exact render_of_not_hasLink x hx
  refine ⟨fun hno => key _ (not_hasLink_of_no_token _ hno), fun h91 h93 => key _ ?_⟩
  have e91 : lit "[" = [91] := by decide
  have e93 : lit "]" = [93] := by decide
  have := not_hasLink_bracket s hs h91 h93
  rw [e91, e93]
  simpa using this

theorem HTMLBody_bracket_witness :
    (Page.mk [] (lit "[" ++ lit "a b\n<" ++ lit "]")).HTMLBody =
      replaceNewlines (lit "<br>") (HTMLEscapeString (lit "[" ++ lit "a b\n<" ++ lit "]")) :=
  (HTMLBody_bracket [] (lit "a b\n<") (Or.inr ⟨32, by decide, by decide⟩)).2
    (by decide) (by decide)

/-- C9 as stated fails: the inner text `a][b` contains non-alphanumeric bytes,
yet the body `[a][b]` renders as two anchors, not as its escaped form. -/
theorem HTMLBody_bracket_counterexample :
    (∃ c ∈ lit "a][b", isAlnum c = false) ∧
    (Page.mk [] (lit "[" ++ lit "a][b" ++ lit "]")).HTMLBody =
      lit "<a href=\"/view/a\">a</a><a href=\"/view/b\">b</a>" ∧
    (Page.mk [] (lit "[" ++ lit "a][b" ++ lit "]")).HTMLBody ≠
      replaceNewlines (lit "<br>") (HTMLEscapeString (lit "[" ++ lit "a][b" ++ lit "]")) :=
  ⟨⟨93, by decide, by decide⟩, by decide, by decide⟩

/-- C10: every link the renderer generates is routable.  Wherever `<a` stands
in the output of `HTMLBody`, an anchor `<a href="/view/T">T</a>` with `T`
one or more alphanumerics starts; `validPath` accepts its target `/view/T`
with `T` as the title, so the wrapper built by `makeHandler` calls the
handler with exactly `T`. -/
theorem anchors_routable (p : Page) (pre post : Str)
    (h : p.HTMLBody = pre ++ lit "<a" ++ post) :
    ∃ T rest : Str, T ≠ [] ∧ (∀ c ∈ T, isAlnum c = true) ∧
      lit "<a" ++ post = lit "<a href=\"/view/" ++ T ++ lit "\">" ++ T ++ lit "</a>" ++ rest ∧
      validPath.FindStringSubmatch (lit "/view/" ++ T) =
        some [lit "/view/" ++ T, lit "view", T] ∧
      ∀ (fn : ResponseWriter → Request → Str → FS → ResponseWriter × FS)
        (w : ResponseWriter) (r : Request) (fs : FS),
        r.Path = lit "/view/" ++ T → makeHandler fn w r fs = fn w r T fs := by
  have ha : lit "<a" = [60, 97] := by decide
  have h2 : lit "</a>" = 60 :: 47 :: lit "a>" := by decide
  have h3 : lit "<br>" = 60 :: 98 :: lit "r>" := by decide
  have hv : lit "/view/" = 47 :: lit "view" ++ [47] := by decide
  rw [HTMLBody_eq] at h
  have hI := AllLt_split _ _ (render_AllLt p.Body) pre (97 :: post)
    (by rw [render, h, ha]; simp)
  rcases hI with ⟨T, rest, hT, hal, e⟩ | hI | hI
  · have hfind : validPath.FindStringSubmatch (lit "/view/" ++ T) =
        some [lit "/view/" ++ T, lit "view", T] := by
      have hp : pathAt (lit "/view/" ++ T) = some (lit "view", T) :=
        (pathAt_spec _ _ _).2 ⟨by simp, hT, hal, by rw [hv]; simp⟩
      rw [validPath_find, hp]
      rfl
    refine ⟨T, rest, hT, hal, ?_, hfind, ?_⟩
    · rw [ha]
      simp only [List.cons_append, List.nil_append]
      rw [e, linkFormat]
    · intro fn w r fs hr
      simp [makeHandler, hr, hfind]
  · rw [h2] at hI
    simp at hI
  · rw [h3] at hI
    simp at hI

theorem anchors_routable_witness :
    ∃ T rest : Str, T ≠ [] ∧ (∀ c ∈ T, isAlnum c = true) ∧
      lit "<a" ++ lit " href=\"/view/Home\">Home</a>!" =
        lit "<a href=\"/view/" ++ T ++ lit "\">" ++ T ++ lit "</a>" ++ rest ∧
      validPath.FindStringSubmatch (lit "/view/" ++ T) =
        some [lit "/view/" ++ T, lit "view", T] ∧
      ∀ (fn : ResponseWriter → Request → Str → FS → ResponseWriter × FS)
        (w : ResponseWriter) (r : Request) (fs : FS),
        r.Path = lit "/view/" ++ T → makeHandler fn w r fs = fn w r T fs :=
  anchors_routable (Page.mk [] (lit "x[Home]!")) (lit "x")
    (lit " href=\"/view/Home\">Home</a>!") (by decide)

/-! ## The page store: claims -/

theorem lookup_insert (fs : FS) (path : Str) (n : Node) : (fs.insert path n).lookup path = some n := by
  simp [FS.insert, FS.lookup]

theorem splitSep_no_sep (s : Str) (h : (47 : Byte) ∉ s) : splitSep 47 s = [s] := by
  induction s with
  | nil => rfl
  | cons c cs ih =>
    simp only [List.mem_cons, not_or] at h
    have hc : c ≠ 47 := fun e => h.1 e.symm
    simp [splitSep, hc, ih h.2]

theorem splitSep_append (a b : Str) (h : (47 : Byte) ∉ a) :
    splitSep 47 (a ++ 47 :: b) = a :: splitSep 47 b := by
  induction a with
  | nil => simp [splitSep]
  | cons c cs ih =>
    simp only [List.mem_cons, not_or] at h
    have hc : c ≠ 47 := fun e => h.1 e.symm
    simp [splitSep, hc, ih h.2]

/-- A path of two ordinary elements is clean. -/
theorem Clean_two (d f : Str) (hd : (47 : Byte) ∉ d) (hf : (47 : Byte) ∉ f)
    (hd1 : d ≠ []) (hd2 : d ≠ lit ".") (hd3 : d ≠ lit "..")
    (hf1 : f ≠ []) (hf2 : f ≠ lit ".") (hf3 : f ≠ lit "..") :
    Clean (d ++ 47 :: f) = d ++ 47 :: f := by
  have hne : d ++ 47 :: f ≠ [] := by simp
  have hhead : (d ++ 47 :: f).head? ≠ some 47 := by
    cases d with
    | nil => exact absurd rfl hd1
    | cons c cs =>
      simp only [List.mem_cons, not_or] at hd
      simpa using fun e => hd.1 e.symm
  have hsegs : cleanSegs false [d, f] [] = [d, f] := by
    simp [cleanSegs, hd1, hd2, hd3, hf1, hf2, hf3]
  simp only [Clean, hne, if_false, hhead, decide_False, splitSep_append _ _ hd,
    splitSep_no_sep _ hf, hsegs]
  simp [joinSep]

/-- The file of a page with an alphanumeric title is `data/<title>.txt`. -/
theorem filePath_alnum (title : Str) (hal : ∀ c ∈ title, isAlnum c = true) :
    filepathJoin dataPath (title ++ lit ".txt") = lit "data/" ++ title ++ lit ".txt" := by
  have ht : (47 : Byte) ∉ title ++ lit ".txt" := by
    have h1 : (47 : Byte) ∉ title := fun hm => absurd (hal 47 hm) (by decide)
    have h2 : (47 : Byte) ∉ lit ".txt" := by decide
    simp [h1, h2]
  have hlen : (title ++ lit ".txt").length = title.length + 4 := by
    rw [List.length_append]; rfl
  have hn1 : title ++ lit ".txt" ≠ [] := by
    intro e; rw [e] at hlen; simp at hlen
  have hn2 : title ++ lit ".txt" ≠ lit "." := by
    intro e; rw [e] at hlen; have : (lit ".").length = 1 := rfl; omega
  have hn3 : title ++ lit ".txt" ≠ lit ".." := by
    intro e; rw [e] at hlen; have : (lit "..").length = 2 := rfl; omega
  have hd3 : dataPath ≠ [] := by decide
  have hj : lit "data/" ++ title ++ lit ".txt" = dataPath ++ 47 :: (title ++ lit ".txt") := by
    have : lit "data/" = dataPath ++ [47] := by decide
    rw [this]
    simp
  rw [hj, filepathJoin, if_neg (fun h => hd3 h.1), if_neg hd3, if_neg hn1]
  exact Clean_two _ _ (by decide) ht hd3 (by decide) (by decide) hn1 hn2 hn3

/-- C1: saving then loading is a round trip.  For a title of one or more
alphanumerics, any body and any prior state of the store, if `save`
succeeds then `loadPage` of the title succeeds and returns the page with
that title and exactly that body, which is the content of
`data/<title>.txt` whatever the file held before. -/
theorem save_loadPage (fs fs1 : FS) (title body : Str) (hne : title ≠ [])
    (hal : ∀ c ∈ title, isAlnum c = true)
    (hsave : (Page.mk title body).save fs = (fs1, none)) :
    loadPage fs1 title = Except.ok (Page.mk title body) ∧
      fs1.lookup (lit "data/" ++ title ++ lit ".txt") = some (Node.file body) := by
  have _ := hne
  have hpath := filePath_alnum title hal
  simp only [Page.save] at hsave
  have key : ∀ fs0 : FS, WriteFile fs0 (filepathJoin dataPath (title ++ lit ".txt")) body
      = (fs1, none) →
      loadPage fs1 title = Except.ok (Page.mk title body) ∧
        fs1.lookup (filepathJoin dataPath (title ++ lit ".txt")) = some (Node.file body) := by
    intro fs0 hw
    simp only [WriteFile] at hw
    split at hw
    · simp at hw
    · rename_i h0
      split at hw
      · simp at hw
      · split at hw
        · simp at hw
        · simp only [Prod.mk.injEq, and_true] at hw
          subst hw
          simp [loadPage, ReadFile, h0, lookup_insert]
  rw [← hpath]
  cases hm : MkdirAll fs dataPath with
  | mk fs0 err =>
    rw [hm] at hsave
    cases err with
    | some e => simp at hsave
    | none => exact key fs0 hsave

theorem save_loadPage_witness :
    (Page.mk (lit "Home") (lit "new\n")).save
        [(lit "data/Home.txt", Node.file (lit "old content")), (lit "data", Node.dir)]
      = ([(lit "data/Home.txt", Node.file (lit "new\n")), (lit "data", Node.dir)], none) ∧
    loadPage [(lit "data/Home.txt", Node.file (lit "new\n")), (lit "data", Node.dir)]
      (lit "Home") = Except.ok (Page.mk (lit "Home") (lit "new\n")) :=
  ⟨by decide, (save_loadPage
    [(lit "data/Home.txt", Node.file (lit "old content")), (lit "data", Node.dir)]
    [(lit "data/Home.txt", Node.file (lit "new\n")), (lit "data", Node.dir)]
    (lit "Home") (lit "new\n") (by decide) (by decide) (by decide)).1⟩


/-! ## Redirects -/

theorem hexEscape_ascii (s : Str) (h : ∀ c ∈ s, ¬ (128 : Byte) ≤ c) : hexEscapeNonASCII s = s := by
  induction s with
  | nil => rfl
  | cons c cs ih =>
    simp [hexEscapeNonASCII, h c (List.mem_cons_self _ _),
      ih (fun d hd => h d (List.mem_cons_of_mem _ hd))]

theorem alnum_ascii (c : Byte) (h : isAlnum c = true) : ¬ (128 : Byte) ≤ c := by
  simp only [isAlnum, inClass, List.any_cons, List.any_nil, Bool.or_false, Bool.or_eq_true,
    Bool.and_eq_true, decide_eq_true_eq] at h
  intro h128
  have e1 : (128 : Byte).toNat = 128 := rfl
  have e2 : (122 : Byte).toNat = 122 := rfl
  have e3 : (90 : Byte).toNat = 90 := rfl
  have e4 : (57 : Byte).toNat = 57 := rfl
  have h0 : (128 : Byte).toNat ≤ c.toNat := h128
  rcases h with ⟨_, h⟩ | ⟨_, h⟩ | ⟨_, h⟩
  · have h1 : c.toNat ≤ (122 : Byte).toNat := h
    omega
  · have h1 : c.toNat ≤ (90 : Byte).toNat := h
    omega
  · have h1 : c.toNat ≤ (57 : Byte).toNat := h
    omega

/-- A rooted path of two ordinary elements is clean. -/
theorem Clean_rooted_two (d f : Str) (hd : (47 : Byte) ∉ d) (hf : (47 : Byte) ∉ f)
    (hd1 : d ≠ []) (hd2 : d ≠ lit ".") (hd3 : d ≠ lit "..")
    (hf1 : f ≠ []) (hf2 : f ≠ lit ".") (hf3 : f ≠ lit "..") :
    Clean (47 :: d ++ 47 :: f) = 47 :: d ++ 47 :: f := by
  have hsplit : splitSep 47 (47 :: d ++ 47 :: f) = [[], d, f] := by
    have : (47 : Byte) :: d ++ 47 :: f = [] ++ 47 :: (d ++ 47 :: f) := by simp
    rw [this, splitSep_append _ _ (by simp), splitSep_append _ _ hd, splitSep_no_sep _ hf]
  have hsegs : cleanSegs true [[], d, f] [] = [d, f] := by
    simp [cleanSegs, hd1, hd2, hd3, hf1, hf2, hf3]
  have hne : (47 : Byte) :: d ++ 47 :: f ≠ [] := by simp
  simp only [Clean, hne, if_false, hsplit]
  simp [hsegs, joinSep]

/-- The redirect to `/<d>/<title>`, for `d` and the title ordinary ASCII path
elements, has that url as its location: `http.Redirect` leaves it as it is. -/
theorem redirectLocation_two (r : Request) (d f : Str)
    (hd : (47 : Byte) ∉ d) (hf : (47 : Byte) ∉ f)
    (hd1 : d ≠ []) (hd2 : d ≠ lit ".") (hd3 : d ≠ lit "..")
    (hf1 : f ≠ []) (hf2 : f ≠ lit ".") (hf3 : f ≠ lit "..")
    (hdq : (63 : Byte) ∉ d) (hfq : (63 : Byte) ∉ f)
    (hda : ∀ c ∈ d, ¬ (128 : Byte) ≤ c) (hfa : ∀ c ∈ f, ¬ (128 : Byte) ≤ c) :
    redirectLocation r (47 :: d ++ 47 :: f) = 47 :: d ++ 47 :: f := by
  have hascii : ∀ c ∈ (47 : Byte) :: d ++ 47 :: f, ¬ (128 : Byte) ≤ c := by
    intro c hc
    simp only [List.cons_append, List.mem_cons, List.mem_append] at hc
    rcases hc with rfl | hc | rfl | hc
    · decide
    · exact hda c hc
    · decide
    · exact hfa c hc
  have hq : ∀ c ∈ (47 : Byte) :: d ++ 47 :: f, (c != 63) = true := by
    intro c hc
    simp only [List.cons_append, List.mem_cons, List.mem_append] at hc
    rcases hc with rfl | hc | rfl | hc
    · decide
    · simp only [bne_iff_ne, ne_eq]
      rintro rfl
      exact hdq hc
    · decide
    · simp only [bne_iff_ne, ne_eq]
      rintro rfl
      exact hfq hc
  have htw : List.takeWhile (fun c => c != 63) (47 :: d ++ 47 :: f) = 47 :: d ++ 47 :: f :=
    List.takeWhile_eq_self_iff.2 hq
  have hdw : List.dropWhile (fun c => c != 63) (47 :: d ++ 47 :: f) = [] :=
    List.dropWhile_eq_nil_iff.2 hq
  have hhead : ((47 : Byte) :: d ++ 47 :: f).head? = some 47 := rfl
  have hclean := Clean_rooted_two d f hd hf hd1 hd2 hd3 hf1 hf2 hf3
  unfold redirectLocation
  by_cases hl : localRef (47 :: d ++ 47 :: f) = true
  · simp only [hl, if_true, hhead, ne_eq, not_true_eq_false, if_false, htw, hdw, hclean,
      List.append_nil]
    rw [if_neg (fun h => h.2 h.1)]
    exact hexEscape_ascii _ hascii
  · rw [if_neg hl]
    exact hexEscape_ascii _ hascii

theorem redirectLocation_alnum (r : Request) (d title : Str)
    (hd : d = lit "edit" ∨ d = lit "view") (hne : title ≠ [])
    (hal : ∀ c ∈ title, isAlnum c = true) :
    redirectLocation r (47 :: d ++ 47 :: title) = 47 :: d ++ 47 :: title := by
  have h47 : (47 : Byte) ∉ title := fun hm => absurd (hal 47 hm) (by decide)
  have h63 : (63 : Byte) ∉ title := fun hm => absurd (hal 63 hm) (by decide)
  have h1 : title ≠ lit "." := by
    rintro rfl
    exact absurd (hal 46 (by decide)) (by decide)
  have h2 : title ≠ lit ".." := by
    rintro rfl
    exact absurd (hal 46 (by decide)) (by decide)
  have ha : ∀ c ∈ title, ¬ (128 : Byte) ≤ c := fun c hc => alnum_ascii c (hal c hc)
  rcases hd with rfl | rfl
  · exact redirectLocation_two r _ _ (by decide) h47 (by decide) (by decide) (by decide)
      hne h1 h2 (by decide) h63 (by decide) ha
  · exact redirectLocation_two r _ _ (by decide) h47 (by decide) (by decide) (by decide)
      hne h1 h2 (by decide) h63 (by decide) ha

/-! ## The handlers: claims -/

/-- C8, as the code has it: when `loadPage` fails, for whatever reason,
`viewHandler` answers with the 302 redirect `http.Redirect` makes of the url
`/edit/<title>` and nothing else, and the store is as it was; the location
of that redirect is `/edit/<title>` itself for a title of one or more
alphanumerics.  When `loadPage` succeeds it renders the template `view` with
the loaded page, whose title is the requested one, and does not redirect. -/
theorem viewHandler_spec (templates : Templates) (w : ResponseWriter) (r : Request)
    (title : Str) (fs : FS) :
    (∀ err, loadPage fs title = Except.error err →
      viewHandler templates w r title fs =
        (w ++ [Call.Redirect (redirectLocation r (lit "/edit/" ++ title)) 302], fs) ∧
      (title ≠ [] → (∀ c ∈ title, isAlnum c = true) →
        viewHandler templates w r title fs =
          (w ++ [Call.Redirect (lit "/edit/" ++ title) 302], fs))) ∧
    (∀ p, loadPage fs title = Except.ok p →
      viewHandler templates w r title fs = (renderTemplate templates w (lit "view") p, fs) ∧
      p.Title = title ∧
      ∃ tail, renderTemplate templates w (lit "view") p =
          w ++ Call.ExecuteTemplate (lit "view.html") p :: tail ∧
        ∀ url code, Call.Redirect url code ∉ tail) := by
  constructor
  · intro err h
    have h1 : viewHandler templates w r title fs =
        (w ++ [Call.Redirect (redirectLocation r (lit "/edit/" ++ title)) 302], fs) := by
      simp [viewHandler, h, http.Redirect, StatusFound]
    refine ⟨h1, fun hne hal => ?_⟩
    have he : lit "/edit/" ++ title = 47 :: lit "edit" ++ 47 :: title := by
      have : lit "/edit/" = 47 :: lit "edit" ++ [47] := by decide
      rw [this]
      simp
    rw [h1, he, redirectLocation_alnum r _ _ (Or.inl rfl) hne hal]
  · intro p h
    refine ⟨by simp [viewHandler, h], ?_, ?_⟩
    · simp only [loadPage] at h
      split at h
      · simp at h
      · simp only [Except.ok.injEq] at h
        rw [← h]
    · have hv : lit "view" ++ lit ".html" = lit "view.html" := by decide
      simp only [renderTemplate, hv]
      cases templates.ExecuteTemplate (lit "view.html") p with
      | none => exact ⟨[], by simp, by simp⟩
      | some e =>
        exact ⟨[Call.Error e StatusInternalServerError], by simp [http.Error], by simp⟩

theorem viewHandler_spec_witness :
    loadPage [] (lit "FooBar") =
      Except.error ⟨lit "open", lit "data/FooBar.txt", lit "no such file or directory"⟩ ∧
    viewHandler ⟨fun _ _ => none⟩ [] ⟨lit "/view/FooBar", lit "/view/FooBar", fun _ => []⟩
        (lit "FooBar") [] =
      ([] ++ [Call.Redirect (lit "/edit/" ++ lit "FooBar") 302], []) :=
  ⟨rfl, ((viewHandler_spec ⟨fun _ _ => none⟩ []
    ⟨lit "/view/FooBar", lit "/view/FooBar", fun _ => []⟩ (lit "FooBar") []).1 _ rfl).2
      (by decide) (by decide)⟩

/-- C8 as stated fails for a title that is not a clean path element: for the
title `a/../b`, with no page stored, the location of the redirect is
`/edit/b`, not `/edit/a/../b`. -/
theorem viewHandler_counterexample :
    loadPage [] (lit "a/../b") =
      Except.error ⟨lit "open", lit "data/b.txt", lit "no such file or directory"⟩ ∧
    viewHandler ⟨fun _ _ => none⟩ [] ⟨lit "/view/x", lit "/view/x", fun _ => []⟩
        (lit "a/../b") [] = ([Call.Redirect (lit "/edit/b") 302], []) ∧
    lit "/edit/b" ≠ lit "/edit/" ++ lit "a/../b" :=
  ⟨rfl, by decide, by decide⟩

/-- C6: the wrapper built by `makeHandler` calls the wrapped handler exactly
when the request path is `/`, one of `edit`, `save`, `view`, `/`, and a title
of one or more alphanumerics, with nothing before or after, and then with
exactly that title; for every other path, such as `/view/foo!bar`, `/view/`
and `/view/a/b`, the response is 404 Not Found whatever the handler is. -/
theorem makeHandler_spec (fn : ResponseWriter → Request → Str → FS → ResponseWriter × FS)
    (w : ResponseWriter) (r : Request) (fs : FS) :
    (∀ a t : Str, a ∈ [lit "edit", lit "save", lit "view"] → t ≠ [] →
      (∀ c ∈ t, isAlnum c = true) → r.Path = lit "/" ++ a ++ lit "/" ++ t →
      makeHandler fn w r fs = fn w r t fs) ∧
    ((¬ ∃ a t : Str, a ∈ [lit "edit", lit "save", lit "view"] ∧ t ≠ [] ∧
        (∀ c ∈ t, isAlnum c = true) ∧ r.Path = lit "/" ++ a ++ lit "/" ++ t) →
      makeHandler fn w r fs = (w ++ [Call.Error (lit "404 page not found") 404], fs)) ∧
    (r.Path ∈ [lit "/view/foo!bar", lit "/view/", lit "/view/a/b"] →
      makeHandler fn w r fs = (w ++ [Call.Error (lit "404 page not found") 404], fs)) := by
  have hs : lit "/" = [47] := by decide
  have hnone : pathAt r.Path = none →
      makeHandler fn w r fs = (w ++ [Call.Error (lit "404 page not found") 404], fs) := by
    intro h
    simp [makeHandler, validPath_find, h, http.NotFound, http.Error, StatusNotFound]
  refine ⟨?_, ?_, ?_⟩
  · intro a t ha ht hal hp
    have : pathAt r.Path = some (a, t) :=
      (pathAt_spec _ _ _).2 ⟨ha, ht, hal, by rw [hp, hs]; simp⟩
    simp [makeHandler, validPath_find, this]
  · intro hno
    apply hnone
    cases h : pathAt r.Path with
    | none => rfl
    | some at1 =>
      exfalso
      obtain ⟨a, t⟩ := at1
      obtain ⟨ha, ht, hal, hp⟩ := (pathAt_spec _ _ _).1 h
      exact hno ⟨a, t, ha, ht, hal, by rw [hp, hs]; simp⟩
  · intro hmem
    apply hnone
    simp only [List.mem_cons, List.mem_singleton, List.not_mem_nil, or_false] at hmem
    rcases hmem with h | h | h <;> rw [h] <;> decide

theorem makeHandler_spec_witness :
    makeHandler (fun w _ t fs => (w ++ [Call.Redirect t 0], fs)) []
        ⟨lit "/" ++ lit "edit" ++ lit "/" ++ lit "Page1", lit "/edit/Page1", fun _ => []⟩ [] =
      ([] ++ [Call.Redirect (lit "Page1") 0], []) :=
  (makeHandler_spec (fun w _ t fs => (w ++ [Call.Redirect t 0], fs)) []
    ⟨lit "/" ++ lit "edit" ++ lit "/" ++ lit "Page1", lit "/edit/Page1", fun _ => []⟩ []).1
    (lit "edit") (lit "Page1") (by decide) (by decide) (by decide) rfl

/-! ## Routing: claims -/

theorem takeWhile_append_stop (q : Str) :
    List.takeWhile (fun c => c != 47) (q ++ [(47 : Byte)]) = List.takeWhile (fun c => c != 47) q := by
  induction q with
  | nil => simp [List.takeWhile_cons]
  | cons c cs ih =>
    by_cases hc : c = 47
    · simp [List.takeWhile_cons, hc]
    · simp [List.takeWhile_cons, hc, ih]

theorem dropWhile_append_stop (q : Str) :
    List.dropWhile (fun c => c != 47) (q ++ [(47 : Byte)]) =
      List.dropWhile (fun c => c != 47) q ++ [47] := by
  induction q with
  | nil => simp [List.dropWhile_cons]
  | cons c cs ih =>
    by_cases hc : c = 47
    · simp [List.dropWhile_cons, hc]
    · simp [List.dropWhile_cons, hc, ih]

/-- Appending a slash to a path leaves its first segment as it is. -/
theorem firstSegment_append_slash (p : Str) (hp : lit "/" <+: p) (hne : p ≠ lit "/") :
    firstSegment (p ++ lit "/") = ((firstSegment p).1, (firstSegment p).2 ++ lit "/") := by
  have hs : lit "/" = [47] := by decide
  rw [hs] at hp hne ⊢
  obtain ⟨q, rfl⟩ := hp
  have hq : q ≠ [] := by
    rintro rfl
    exact hne rfl
  have h1 : ([47] ++ q ++ [47] : Str) ≠ lit "/" := by
    rw [hs]
    cases q with
    | nil => exact absurd rfl hq
    | cons c cs => simp
  have h2 : ([47] ++ q : Str) ≠ lit "/" := by rw [hs]; exact hne
  simp only [firstSegment, h1, h2, if_false]
  simp [takeWhile_append_stop, dropWhile_append_stop]

theorem matchSegments_root (path : Str) : matchSegments [[]] path = (path != []) := by
  simp [matchSegments]

theorem matchSegments_sub (a path : Str) (ha : a ≠ []) :
    matchSegments [a, []] path =
      (path != [] && (firstSegment path).1 == a && (firstSegment path).2 != []) := by
  have : (a == ([] : Str)) = false := by simpa using ha
  simp only [matchSegments, this, Bool.false_and, matchSegments_root]
  simp

/-- The route the mux of `main` selects: by the first segment of the path for
`view`, `edit` and `save` when more of the path follows, else the root
route. -/
theorem match_routes (templates : Templates) (path : Str) :
    ServeMux.match (routes templates) path =
      if path = [] then none
      else if (firstSegment path).1 = lit "view" ∧ (firstSegment path).2 ≠ [] then
        some (lit "/view/", makeHandler (viewHandler templates))
      else if (firstSegment path).1 = lit "edit" ∧ (firstSegment path).2 ≠ [] then
        some (lit "/edit/", makeHandler (editHandler templates))
      else if (firstSegment path).1 = lit "save" ∧ (firstSegment path).2 ≠ [] then
        some (lit "/save/", makeHandler saveHandler)
      else some (lit "/", rootHandler) := by
  have s0 : patternSegments (lit "/") = [[]] := by decide
  have s1 : patternSegments (lit "/view/") = [lit "view", []] := by decide
  have s2 : patternSegments (lit "/edit/") = [lit "edit", []] := by decide
  have s3 : patternSegments (lit "/save/") = [lit "save", []] := by decide
  have d12 : lit "view" ≠ lit "edit" := by decide
  have d13 : lit "view" ≠ lit "save" := by decide
  have d23 : lit "edit" ≠ lit "save" := by decide
  have d21 : lit "edit" ≠ lit "view" := by decide
  have d31 : lit "save" ≠ lit "view" := by decide
  have d32 : lit "save" ≠ lit "edit" := by decide
  simp only [ServeMux.match, routes, List.foldl, s0, s1, s2, s3, matchSegments_root,
    matchSegments_sub _ _ (by decide : lit "view" ≠ []),
    matchSegments_sub _ _ (by decide : lit "edit" ≠ []),
    matchSegments_sub _ _ (by decide : lit "save" ≠ [])]
  generalize (firstSegment path).1 = seg
  generalize (firstSegment path).2 = rest
  by_cases hp : path = []
  · simp [hp]
  by_cases h4 : rest = []
  · simp [hp, h4]
  by_cases h1 : seg = lit "view"
  · simp [hp, h4, h1, d12, d13, s0, s1]
  by_cases h2 : seg = lit "edit"
  · simp [hp, h4, h2, d21, d23, s0, s1]
  by_cases h3 : seg = lit "save"
  · simp [hp, h4, h3, d31, d32, s0, s1, s2]
  simp [hp, h1, h2, h3, h4]

/-- A request path in canonical form starts with `/`. -/
theorem cleanPath_rooted (path : Str) (h : cleanPath path = path) : lit "/" <+: path := by
  have hs : lit "/" = [47] := by decide
  cases path with
  | nil => simp [cleanPath] at h; exact absurd h (by decide)
  | cons c cs =>
    by_cases hc : c = 47
    · subst hc
      rw [hs]
      exact ⟨cs, rfl⟩
    · exfalso
      have h1 : (c :: cs).head? ≠ some 47 := by simpa using hc
      have hC : ∃ t, Clean (47 :: c :: cs) = 47 :: t := by
        simp [Clean]
      obtain ⟨t, ht⟩ := hC
      have hnil : c :: cs ≠ [] := by simp
      simp only [cleanPath, hnil, h1, if_false, ht] at h
      split at h
      · simp only [List.cons_append, List.cons.injEq] at h
        exact hc h.1.symm
      · simp only [List.cons.injEq] at h
        exact hc h.1.symm

theorem count_of_dropWhile (q : Str) (h : List.dropWhile (fun c => c != 47) q ≠ []) :
    1 ≤ q.count (47 : Byte) := by
  induction q with
  | nil => simp at h
  | cons c cs ih =>
    by_cases hc : c = 47
    · subst hc
      simp
    · have hc1 : (c != 47) = true := by simpa using hc
      rw [List.dropWhile_cons, if_pos hc1] at h
      have := ih h
      rw [List.count_cons]
      omega

/-- A rooted path counts at least one slash, and two when more follows its
first segment. -/
theorem count_rooted (p : Str) (hp : lit "/" <+: p) :
    1 ≤ p.count (47 : Byte) ∧ ((firstSegment p).2 ≠ [] → 2 ≤ p.count (47 : Byte)) := by
  have hs : lit "/" = [47] := by decide
  rw [hs] at hp
  obtain ⟨q, rfl⟩ := hp
  refine ⟨by simp, fun h => ?_⟩
  by_cases hq : q = []
  · subst hq
    exact absurd (by decide) h
  · have hne : ([47] ++ q : Str) ≠ lit "/" := by
      rw [hs]
      cases q with
      | nil => exact absurd rfl hq
      | cons c cs => simp
    simp only [firstSegment, hne, if_false] at h
    have := count_of_dropWhile q (by simpa using h)
    show 2 ≤ List.count 47 (47 :: q)
    rw [List.count_cons_self]
    omega

/-- No redirect to `/tree/`: after a slash is appended the match is not
exact, unless the path is `/view`, `/edit` or `/save` up to escaping. -/
theorem not_exact_append_slash (templates : Templates) (p : Str) (hp : lit "/" <+: p)
    (hlast : p.getLast? ≠ some 47)
    (h : (firstSegment p).1 ∈ [lit "view", lit "edit", lit "save"] → (firstSegment p).2 ≠ []) :
    exactMatch (ServeMux.match (routes templates) (p ++ lit "/")) (p ++ lit "/") = false := by
  have hne : p ≠ lit "/" := by
    rintro rfl
    exact hlast (by decide)
  have hcount : (p ++ lit "/").count (47 : Byte) = p.count 47 + 1 := by
    rw [List.count_append]
    rfl
  have hc := count_rooted p hp
  have hpne : p ++ lit "/" ≠ [] := by
    have : lit "/" ≠ [] := by decide
    simp [this]
  have hrest : (firstSegment p).2 ++ lit "/" ≠ [] := by
    have : lit "/" ≠ [] := by decide
    simp [this]
  have g0 : (lit "/").getLast? = some 47 := by decide
  have g1 : (lit "/view/").getLast? = some 47 := by decide
  have g2 : (lit "/edit/").getLast? = some 47 := by decide
  have g3 : (lit "/save/").getLast? = some 47 := by decide
  have s0 : (patternSegments (lit "/")).length = 1 := by decide
  have s1 : (patternSegments (lit "/view/")).length = 2 := by decide
  have s2 : (patternSegments (lit "/edit/")).length = 2 := by decide
  have s3 : (patternSegments (lit "/save/")).length = 2 := by decide
  rw [match_routes, firstSegment_append_slash p hp hne, if_neg hpne]
  simp only [hrest, ne_eq, not_false_eq_true, and_true]
  by_cases h1 : (firstSegment p).1 = lit "view"
  · have := hc.2 (h (by simp [h1]))
    simp only [h1, if_true, exactMatch, g1, hcount, s1]
    simp
    intros
    omega
  by_cases h2 : (firstSegment p).1 = lit "edit"
  · have := hc.2 (h (by simp [h2]))
    rw [if_neg h1, if_pos h2]
    simp only [exactMatch, g2, hcount, s2]
    simp
    intros
    omega
  by_cases h3 : (firstSegment p).1 = lit "save"
  · have := hc.2 (h (by simp [h3]))
    rw [if_neg h1, if_neg h2, if_pos h3]
    simp only [exactMatch, g3, hcount, s3]
    simp
    intros
    omega
  have := hc.1
  rw [if_neg h1, if_neg h2, if_neg h3]
  simp only [exactMatch, g0, hcount, s0]
  simp
  intros
  omega

/-- C7, as the code has it: for a request whose escaped path is in canonical
form, if the first segment of that path, unescaped, is `view`, `edit` or
`save`, more of the path follows it and the request path does not match the
allowed pattern, the response is 404; if the first segment is none of the
three, as for `/delete/Foo`, the root route serves the request: a 302
redirect to `/view/FrontPage`. -/
theorem main_routing (templates : Templates) (w : ResponseWriter) (r : Request) (fs : FS)
    (hclean : cleanPath r.EscapedPath = r.EscapedPath) :
    ((firstSegment r.EscapedPath).1 ∈ [lit "view", lit "edit", lit "save"] →
      (firstSegment r.EscapedPath).2 ≠ [] →
      validPath.FindStringSubmatch r.Path = none →
      main templates w r fs = (w ++ [Call.Error (lit "404 page not found") 404], fs)) ∧
    ((firstSegment r.EscapedPath).1 ∉ [lit "view", lit "edit", lit "save"] →
      main templates w r fs = (w ++ [Call.Redirect (lit "/view/FrontPage") 302], fs)) := by
  have hroot := cleanPath_rooted r.EscapedPath hclean
  have hne : r.EscapedPath ≠ [] := by
    intro e
    rw [e] at hclean
    exact absurd hclean (by decide)
  have hdispatch : ((firstSegment r.EscapedPath).1 ∈ [lit "view", lit "edit", lit "save"] →
        (firstSegment r.EscapedPath).2 ≠ []) →
      main templates w r fs =
        match ServeMux.match (routes templates) r.EscapedPath with
        | some e => e.2 w r fs
        | none => (http.NotFound w r, fs) := by
    intro h
    have hcond : ¬ ((!exactMatch (ServeMux.match (routes templates) r.EscapedPath)
          r.EscapedPath) = true ∧ r.EscapedPath.getLast? ≠ some 47 ∧
        exactMatch (ServeMux.match (routes templates) (r.EscapedPath ++ lit "/"))
          (r.EscapedPath ++ lit "/") = true) := by
      rintro ⟨_, h2, h3⟩
      rw [not_exact_append_slash templates _ hroot h2 h] at h3
      exact Bool.noConfusion h3
    simp only [main, ServeMux.ServeHTTP, hclean]
    rw [if_neg hcond, if_neg (fun h => h rfl)]
  have h404 : ∀ fn, validPath.FindStringSubmatch r.Path = none →
      makeHandler fn w r fs = (w ++ [Call.Error (lit "404 page not found") 404], fs) := by
    intro fn h
    simp [makeHandler, h, http.NotFound, http.Error, StatusNotFound]
  constructor
  · intro hseg hrest hnone
    rw [hdispatch (fun _ => hrest), match_routes, if_neg hne]
    simp only [List.mem_cons, List.mem_singleton, List.not_mem_nil, or_false] at hseg
    by_cases h1 : (firstSegment r.EscapedPath).1 = lit "view"
    · simp only [h1, hrest, ne_eq, not_false_eq_true, and_self, if_true]
      exact h404 _ hnone
    by_cases h2 : (firstSegment r.EscapedPath).1 = lit "edit"
    · simp only [h1, h2, hrest, ne_eq, not_false_eq_true, and_self, if_true, false_and,
        if_false]
      exact h404 _ hnone
    by_cases h3 : (firstSegment r.EscapedPath).1 = lit "save"
    · simp only [h1, h2, h3, hrest, ne_eq, not_false_eq_true, and_self, if_true, false_and,
        if_false]
      exact h404 _ hnone
    exact absurd hseg (by simp [h1, h2, h3])
  · intro hseg
    rw [hdispatch (fun h => absurd h hseg), match_routes, if_neg hne]
    simp only [List.mem_cons, List.mem_singleton, List.not_mem_nil, or_false, not_or] at hseg
    have hloc : redirectLocation r (lit "/view/FrontPage") = lit "/view/FrontPage" := by
      have e : lit "/view/FrontPage" = 47 :: lit "view" ++ 47 :: lit "FrontPage" := by decide
      rw [e]
      exact redirectLocation_alnum r _ _ (Or.inr rfl) (by decide) (by decide)
    simp [hseg.1, hseg.2.1, hseg.2.2, rootHandler, http.Redirect, StatusFound, hloc]

theorem main_routing_witness :
    main ⟨fun _ _ => none⟩ [] ⟨lit "/delete/Foo", lit "/delete/Foo", fun _ => []⟩ [] =
      ([] ++ [Call.Redirect (lit "/view/FrontPage") 302], []) ∧
    main ⟨fun _ _ => none⟩ [] ⟨lit "/view/foo!bar", lit "/view/foo!bar", fun _ => []⟩ [] =
      ([] ++ [Call.Error (lit "404 page not found") 404], []) :=
  ⟨(main_routing ⟨fun _ _ => none⟩ [] ⟨lit "/delete/Foo", lit "/delete/Foo", fun _ => []⟩ []
      (by decide)).2 (by decide),
    (main_routing ⟨fun _ _ => none⟩ [] ⟨lit "/view/foo!bar", lit "/view/foo!bar", fun _ => []⟩
      [] (by decide)).1 (by decide) (by decide) (by decide)⟩

/-- C7 as stated fails.  The path `/delete/Foo` is not `/` and does not match
the allowed pattern, yet the response is the root route's redirect to
`/view/FrontPage`; so it is for the path `/view/x!` sent as `/view%2Fx!`,
whose first segment is not `view`; and the path `/view//x!`, not in
canonical form, is answered by the mux with its own redirect.  None of the
three responses is 404. -/
theorem main_delete_counterexample :
    lit "/delete/Foo" ≠ lit "/" ∧
    validPath.FindStringSubmatch (lit "/delete/Foo") = none ∧
    main ⟨fun _ _ => none⟩ [] ⟨lit "/delete/Foo", lit "/delete/Foo", fun _ => []⟩ [] =
      ([Call.Redirect (lit "/view/FrontPage") 302], []) ∧
    validPath.FindStringSubmatch (lit "/view/x!") = none ∧
    main ⟨fun _ _ => none⟩ [] ⟨lit "/view/x!", lit "/view%2Fx!", fun _ => []⟩ [] =
      ([Call.Redirect (lit "/view/FrontPage") 302], []) ∧
    validPath.FindStringSubmatch (lit "/view//x!") = none ∧
    main ⟨fun _ _ => none⟩ [] ⟨lit "/view//x!", lit "/view//x!", fun _ => []⟩ [] =
      ([Call.MuxRedirect (lit "/view/x!")], []) := by
  decide

end Wiki
